import Mathlib

/-!
Shallow embedding of the `AfterRenderManager` execution pipeline from
`packages/core/src/render3/after_render/manager.ts` and of the signal-graph
debug extraction from `packages/core/src/render3/util/signal_debug.ts`,
together with theorems checking the natural-language specification against
this code.

Modelling conventions for the manager:
  * `AfterRenderSequence` objects are identified by natural numbers.  The
    immutable `hooks` field of each object lives in a `HookEnv`
    (`Nat → AfterRenderPhase → Option AfterRenderHook`), mirroring the
    `readonly hooks` field; the mutable per-object fields
    (`once`, `erroredOrDestroyed`, `pipelinedValue`) live in a store
    `Nat → SeqState` inside the manager state.
  * JavaScript `Set` iteration order is insertion order; sets of sequences
    are modelled as duplicate-free lists, `Set.add` as `addIfAbsent` and
    `Set.delete` as `List.erase`.
  * A hook receives the pipelined value and either returns a value or
    throws; while running it may call `register`/`unregister` on the
    manager (the only manager-visible effects a hook can have here).  This
    is modelled by `HookOutcome`: the list of `register`/`unregister`
    calls made during the hook body, followed by the result
    (`Except Unit JSValue`, `.error` modelling a thrown exception).
  * `scheduler.notify` calls are logged in `notifications`;
    `errorHandler?.handleError` calls are counted in `handledErrors`
    (only when an error handler is present, `hasErrorHandler`);
    `sequence.destroy()` calls are logged in `destroyed`.
  * `ngZone.runOutsideAngular(fn)` simply invokes `fn`.
-/

namespace AfterRender

/-- JavaScript values passed through hooks (`unknown` in the source);
`undefined` is distinguished because the manager resets pipelined values
to `undefined`. -/
inductive JSValue
  | undefined
  | null
  | num (n : Int)
  | str (s : String)
  deriving DecidableEq

/-- `AfterRenderPhase` from `after_render/api.ts`. -/
inductive AfterRenderPhase
  | EarlyRead
  | Write
  | MixedReadWrite
  | Read
  deriving DecidableEq

/-- `AFTER_RENDER_PHASES`: the fixed phase order used by `execute`. -/
def AFTER_RENDER_PHASES : List AfterRenderPhase :=
  [.EarlyRead, .Write, .MixedReadWrite, .Read]

/-- Position of a phase in `AFTER_RENDER_PHASES`. -/
def phaseIdx : AfterRenderPhase → Nat
  | .EarlyRead => 0
  | .Write => 1
  | .MixedReadWrite => 2
  | .Read => 3

/-- The two `NotificationSource` values the manager sends to the
change-detection scheduler. -/
inductive NotificationSource
  | RenderHook
  | DeferredRenderHook
  deriving DecidableEq

/-- A manager-mutating call a hook body can make while it runs. -/
inductive HookEffect
  | register (seq : Nat)
  | unregister (seq : Nat)
  deriving DecidableEq

/-- Result of running one hook body: the `register`/`unregister` calls it
made, in order, and then its return value or thrown exception. -/
structure HookOutcome where
  effects : List HookEffect
  result : Except Unit JSValue

/-- `AfterRenderHook`: takes the pipelined value, produces an outcome. -/
def AfterRenderHook := JSValue → HookOutcome

/-- The immutable `hooks` tuple of every sequence object
(`AfterRenderHooks`: one optional hook per phase), indexed by object id. -/
def HookEnv := Nat → AfterRenderPhase → Option AfterRenderHook

/-- Mutable fields of an `AfterRenderSequence` object. -/
structure SeqState where
  once : Bool
  erroredOrDestroyed : Bool
  pipelinedValue : JSValue
  deriving DecidableEq

/-- State of an `AfterRenderImpl` together with the mutable state of all
sequence objects and logs of its outward calls. -/
structure ManagerState where
  /-- `sequences`: the current set of active sequences, in insertion order. -/
  sequences : List Nat
  /-- `deferredRegistrations`: registrations made during execution. -/
  deferredRegistrations : List Nat
  /-- `executing`: whether hooks are currently being executed. -/
  executing : Bool
  /-- Mutable per-object sequence state. -/
  store : Nat → SeqState
  /-- Log of `scheduler.notify(...)` calls. -/
  notifications : List NotificationSource
  /-- Whether an `ErrorHandler` was injected (it is optional). -/
  hasErrorHandler : Bool
  /-- Number of `errorHandler.handleError(...)` calls. -/
  handledErrors : Nat
  /-- Log of `sequence.destroy()` calls. -/
  destroyed : List Nat

/-- Update the mutable state of one sequence object. -/
def setSeq (st : ManagerState) (id : Nat) (f : SeqState → SeqState) : ManagerState :=
  { st with store := fun i => if i = id then f (st.store i) else st.store i }

/-- `Set.add`: appends unless already present. -/
def addIfAbsent (l : List Nat) (x : Nat) : List Nat :=
  if x ∈ l then l else l ++ [x]

/-- `AfterRenderImpl.register`. -/
def register (st : ManagerState) (id : Nat) : ManagerState :=
  if st.executing then
    { st with deferredRegistrations := addIfAbsent st.deferredRegistrations id }
  else
    { st with
      sequences := addIfAbsent st.sequences id
      notifications := st.notifications ++ [.RenderHook] }

/-- `AfterRenderImpl.unregister`. -/
def unregister (st : ManagerState) (id : Nat) : ManagerState :=
  if st.executing ∧ id ∈ st.sequences then
    setSeq st id fun s =>
      { s with erroredOrDestroyed := true, pipelinedValue := .undefined, once := true }
  else
    { st with
      sequences := st.sequences.erase id
      deferredRegistrations := st.deferredRegistrations.erase id }

/-- `AfterRenderSequence.destroy`: unregisters from the manager (the
`DestroyRef` teardown and the per-view registration queue are outside this
model) and is logged. -/
def destroySeq (st : ManagerState) (id : Nat) : ManagerState :=
  let st' := unregister st id
  { st' with destroyed := st'.destroyed ++ [id] }

/-- Interpret one manager call made by a running hook. -/
def applyEffect (st : ManagerState) : HookEffect → ManagerState
  | .register id => register st id
  | .unregister id => unregister st id

/-- Interpret the manager calls made by a hook body, in order. -/
def applyEffects (st : ManagerState) (es : List HookEffect) : ManagerState :=
  es.foldl applyEffect st

instance : DecidableEq (Except Unit JSValue) := fun
  | .ok a, .ok b => decidable_of_iff (a = b) (by simp)
  | .ok _, .error _ => isFalse (by simp)
  | .error _, .ok _ => isFalse (by simp)
  | .error a, .error b => decidable_of_iff (a = b) (by simp)

/-- One observed hook invocation: phase, sequence, the argument the hook
received and the result it produced. -/
structure TraceEntry where
  phase : AfterRenderPhase
  seq : Nat
  arg : JSValue
  result : Except Unit JSValue
  deriving DecidableEq

/-- The `catch` body of the inner loop: mark the sequence
`erroredOrDestroyed` and forward the error to the `ErrorHandler` when one
is present (`setSeq` changes neither `hasErrorHandler` nor
`handledErrors`, so the condition reads them from `st`). -/
def throwStep (st : ManagerState) (id : Nat) : ManagerState :=
  if st.hasErrorHandler then
    { setSeq st id (fun s => { s with erroredOrDestroyed := true }) with
      handledErrors := st.handledErrors + 1 }
  else setSeq st id fun s => { s with erroredOrDestroyed := true }

/-- Body of the inner loop of `AfterRenderImpl.execute` for one sequence in
one phase: skip if `erroredOrDestroyed` or no hook for this phase;
otherwise run the hook on the pipelined value (applying the manager calls
its body makes), assign the result to `pipelinedValue`, and on a throw run
`throwStep`.  Returns the new state and the invocation made, if any. -/
def hookStep (env : HookEnv) (phase : AfterRenderPhase) (st : ManagerState) (id : Nat) :
    ManagerState × Option TraceEntry :=
  if (st.store id).erroredOrDestroyed then (st, none)
  else
    match env id phase with
    | none => (st, none)
    | some hook =>
      match hook ((st.store id).pipelinedValue) with
      | ⟨effects, .ok v⟩ =>
        (setSeq (applyEffects st effects) id (fun s => { s with pipelinedValue := v }),
          some ⟨phase, id, (st.store id).pipelinedValue, .ok v⟩)
      | ⟨effects, .error e⟩ =>
        (throwStep (applyEffects st effects) id,
          some ⟨phase, id, (st.store id).pipelinedValue, .error e⟩)

/-- Inner-loop step accumulating the trace. -/
def runSeqHook (env : HookEnv) (phase : AfterRenderPhase)
    (acc : ManagerState × List TraceEntry) (id : Nat) : ManagerState × List TraceEntry :=
  let r := hookStep env phase acc.1 id
  (r.1, acc.2 ++ r.2.toList)

/-- `for (const sequence of this.sequences)` for one phase.  While
`executing` is set no hook effect structurally changes `sequences`
(registrations are deferred, unregistrations only mark flags), so the live
`Set` iteration is iteration over the list read at phase entry. -/
def runPhase (env : HookEnv) (phase : AfterRenderPhase)
    (acc : ManagerState × List TraceEntry) : ManagerState × List TraceEntry :=
  acc.1.sequences.foldl (runSeqHook env phase) acc

/-- The phase loop of `execute`: `for (const phase of AFTER_RENDER_PHASES)`. -/
def runPhases (env : HookEnv) (acc : ManagerState × List TraceEntry) :
    ManagerState × List TraceEntry :=
  AFTER_RENDER_PHASES.foldl (fun a p => runPhase env p a) acc

/-- Cleanup-loop body: `sequence.afterRun()`, then one-shot sequences are
removed from the set and destroyed. -/
def cleanupSeq (st : ManagerState) (id : Nat) : ManagerState :=
  let st1 := setSeq st id fun s =>
    { s with erroredOrDestroyed := false, pipelinedValue := .undefined }
  if (st1.store id).once then
    destroySeq { st1 with sequences := st1.sequences.erase id } id
  else st1

/-- The cleanup loop of `execute`.  During cleanup only the sequence being
visited is ever deleted from the set, so the live iteration visits exactly
the members present at loop entry. -/
def cleanup (st : ManagerState) : ManagerState :=
  st.sequences.foldl cleanupSeq st

/-- Tail of `execute`: move `deferredRegistrations` into `sequences`,
notify the scheduler (`DeferredRenderHook`) if there were any, clear. -/
def flushDeferred (st : ManagerState) : ManagerState :=
  let st1 := { st with sequences := st.deferredRegistrations.foldl addIfAbsent st.sequences }
  let st2 :=
    if st1.deferredRegistrations.length > 0 then
      { st1 with notifications := st1.notifications ++ [.DeferredRenderHook] }
    else st1
  { st2 with deferredRegistrations := [] }

/-- `AfterRenderImpl.execute`, also returning the trace of hook
invocations. -/
def executeT (env : HookEnv) (st : ManagerState) : ManagerState × List TraceEntry :=
  let acc := runPhases env ({ st with executing := true }, [])
  (flushDeferred (cleanup { acc.1 with executing := false }), acc.2)

/-- `AfterRenderImpl.execute`: the resulting manager state. -/
def execute (env : HookEnv) (st : ManagerState) : ManagerState :=
  (executeT env st).1

/-- The hook invocations one `execute` call performs, in order. -/
def executeTrace (env : HookEnv) (st : ManagerState) : List TraceEntry :=
  (executeT env st).2

/-! ### Concrete fixtures used to instantiate the theorems -/

/-- A hook that returns a constant value and makes no manager calls. -/
def pureHook (v : JSValue) : AfterRenderHook := fun _ => ⟨[], .ok v⟩

/-- A hook that makes the given manager calls and then returns a value. -/
def effHook (es : List HookEffect) (v : JSValue) : AfterRenderHook := fun _ => ⟨es, .ok v⟩

/-- A hook that throws. -/
def throwHook : AfterRenderHook := fun _ => ⟨[], .error ()⟩

/-- Fresh sequence-object state (as built by the constructor). -/
def freshSeq : SeqState := ⟨false, false, .undefined⟩

/-- All sequence objects fresh. -/
def store0 : Nat → SeqState := fun _ => freshSeq

/-- Two sequences: 0 has EarlyRead and Read hooks, 1 has a Write hook. -/
def env0 : HookEnv := fun id phase =>
  match id, phase with
  | 0, .EarlyRead => some (pureHook (.num 1))
  | 0, .Read => some (pureHook (.num 2))
  | 1, .Write => some (pureHook (.num 3))
  | _, _ => none

/-- A manager at rest with sequences 0 and 1 active. -/
def st0 : ManagerState :=
  { sequences := [0, 1], deferredRegistrations := [], executing := false,
    store := store0, notifications := [], hasErrorHandler := true,
    handledErrors := 0, destroyed := [] }

/-- Like `st0` but sequence 1 has been unregistered mid-execution:
its object is flagged `erroredOrDestroyed` and `once`. -/
def stFlag : ManagerState :=
  { st0 with store := fun i => if i = 1 then ⟨true, true, .undefined⟩ else freshSeq }

/-- Hooks where sequence 0 throws in EarlyRead (and has a Read hook that
must not run) while sequence 1 has a well-behaved Write hook. -/
def envT : HookEnv := fun id phase =>
  match id, phase with
  | 0, .EarlyRead => some throwHook
  | 0, .Read => some (pureHook (.num 7))
  | 1, .Write => some (pureHook (.num 3))
  | _, _ => none

end AfterRender

/-!
Shallow embedding of `packages/core/src/render3/util/signal_debug.ts`:
the extraction of a `DebugSignalGraph` from the reactive graph.

Modelling conventions:
  * `ReactiveNode` objects are identified by natural numbers; the finite
    reactive graph is an association list `Graph` from identity to the
    node's fields.  `node.producerNode` is an optional list of node ids
    (the source applies `?? []`).
  * The prototype sniffing of `isComputedNode` / `isTemplateNode` /
    `isEffectNode` / `isSignalNode` is represented by a `kind` field
    carrying which of the four shapes (or none) the node has.
  * A JS `Map` in insertion order is an association list `SigMap`;
    `Array.prototype.indexOf` (−1 when absent) is `jsIndexOf : … → Int`.
  * The recursion of `extractSignalNodesAndEdgesFromRoots` is given
    explicit fuel, consumed once per descent into a newly inserted node's
    producers; `none` models fuel exhaustion.  The graph is threaded
    through every call and returned, so that the read-only (frame) claim
    is expressible: the returned graph is proved equal to the input.
  * `getSignalGraph`'s injector arguments (`getTemplateConsumer`,
    `extractEffectsFromInjector`, both reading DI state outside this
    file's scope) are summarised by `NodeInjectorModel`: the optional
    template consumer and the effect nodes of the injector.  The
    `R3Injector` / non-`NodeInjector` branches throw and are outside the
    model, which covers exactly the injectors `getSignalGraph` accepts.
-/

namespace SignalDebug

/-- Values held by reactive nodes (stand-in for `unknown`). -/
inductive DebugValue
  | undefined
  | num (n : Int)
  | str (s : String)
  deriving DecidableEq

/-- Which prototype shape a `ReactiveNode` has (the outcome of the
`isComputedNode`/`isTemplateNode`/`isEffectNode`/`isSignalNode` tests). -/
inductive NodeKind
  | computed
  | template
  | effect
  | signal
  | unknown
  deriving DecidableEq

/-- The fields of a `ReactiveNode` read by the extraction. -/
structure ReactiveNode where
  producerNode : Option (List Nat)
  debugName : Option String
  value : DebugValue
  /-- For template nodes: `lView[HOST].tagName` when present. -/
  tagName : Option String
  kind : NodeKind
  deriving DecidableEq

/-- The finite reactive graph: node identity to node fields. -/
abbrev Graph := List (Nat × ReactiveNode)

/-- `signalMap`: a JS `Map` from consumer node to its producer list, in
insertion order. -/
abbrev SigMap := List (Nat × List Nat)

/-- `Map.has`. -/
def hasKey (m : SigMap) (n : Nat) : Bool := m.any fun p => p.1 == n

/-- `(node.producerNode ?? [])` of the node with this identity. -/
def producersOf (g : Graph) (n : Nat) : List Nat :=
  match List.lookup n g with
  | some node => node.producerNode.getD []
  | none => []

/-- `DebugSignalGraphNode`. -/
structure DebugSignalGraphNode where
  kind : String
  label : Option String
  value : Option DebugValue
  deriving DecidableEq

/-- `DebugSignalGraphEdge`: indices into the `nodes` array
(`Array.prototype.indexOf` can produce −1, hence `Int`). -/
structure DebugSignalGraphEdge where
  consumer : Int
  producer : Int
  deriving DecidableEq

/-- `DebugSignalGraph`. -/
structure DebugSignalGraph where
  nodes : List DebugSignalGraphNode
  edges : List DebugSignalGraphEdge
  deriving DecidableEq

/-- `Array.prototype.indexOf`: first index, or −1 when absent. -/
def jsIndexOf (l : List Nat) (x : Nat) : Int :=
  if x ∈ l then (l.indexOf x : Int) else -1

/-- The `map` body over `signalMap.keys()` in
`getNodesAndEdgesFromSignalMap`, one `DebugSignalGraphNode` per key. -/
def renderNode (g : Graph) (n : Nat) : DebugSignalGraphNode :=
  match List.lookup n g with
  | some node =>
    match node.kind with
    | .computed => ⟨"computed", node.debugName, some node.value⟩
    | .template => ⟨"template", node.tagName.map (fun t => t.toLower), none⟩
    | .effect => ⟨"effect", node.debugName, none⟩
    | .signal => ⟨"signal", node.debugName, some node.value⟩
    | .unknown => ⟨"unknown", node.debugName, none⟩
  | none => ⟨"unknown", none, none⟩

/-- `getNodesAndEdgesFromSignalMap`, with the graph threaded through and
returned unchanged. -/
def getNodesAndEdgesFromSignalMap (g : Graph) (signalMap : SigMap) :
    DebugSignalGraph × Graph :=
  let nodes := signalMap.map Prod.fst
  let debugSignalGraphNodes := nodes.map (renderNode g)
  let edges := signalMap.flatMap fun entry =>
    entry.2.map fun producer => ⟨jsIndexOf nodes entry.1, jsIndexOf nodes producer⟩
  (⟨debugSignalGraphNodes, edges⟩, g)

/-- `extractSignalNodesAndEdgesFromRoots`: for each node, skip it when the
dependency map already has it, otherwise record its producers and recurse
into them before continuing with the remaining nodes.  `fuel` bounds the
number of descents; `none` is fuel exhaustion.  The graph is threaded and
returned. -/
def extractSignalNodesAndEdgesFromRoots (g : Graph) (fuel : Nat) (nodes : List Nat)
    (signalDependenciesMap : SigMap) : Option (SigMap × Graph) :=
  match nodes with
  | [] => some (signalDependenciesMap, g)
  | n :: rest =>
    if hasKey signalDependenciesMap n then
      extractSignalNodesAndEdgesFromRoots g fuel rest signalDependenciesMap
    else
      match fuel with
      | 0 => none
      | fuel' + 1 =>
        match extractSignalNodesAndEdgesFromRoots g fuel' (producersOf g n)
            (signalDependenciesMap ++ [(n, producersOf g n)]) with
        | none => none
        | some (m, g') => extractSignalNodesAndEdgesFromRoots g' fuel' rest m
termination_by (fuel, nodes.length)

/-- What `getSignalGraph` reads from the accepted `NodeInjector`: the
template consumer of its `LView` (if any) and the injector's effects. -/
structure NodeInjectorModel where
  templateConsumer : Option Nat
  effects : List Nat

/-- `templateConsumer ? [templateConsumer, ...nonTemplateEffectNodes] :
nonTemplateEffectNodes`. -/
def signalNodesOf (inj : NodeInjectorModel) : List Nat :=
  match inj.templateConsumer with
  | some tc => tc :: inj.effects
  | none => inj.effects

/-- `getSignalGraph` on an accepted injector, with the graph threaded. -/
def getSignalGraph (g : Graph) (inj : NodeInjectorModel) (fuel : Nat) :
    Option (DebugSignalGraph × Graph) :=
  match extractSignalNodesAndEdgesFromRoots g fuel (signalNodesOf inj) [] with
  | none => none
  | some (m, g') => some (getNodesAndEdgesFromSignalMap g' m)

/-- Fuel sufficient to visit every yet-unvisited node of the graph. -/
def freshKeyCount (g : Graph) (m : SigMap) : Nat :=
  ((g.map Prod.fst).dedup.filter fun k => !(hasKey m k)).length

/-- A concrete reactive graph with a dependency cycle between nodes 1
and 2, rooted at effect node 0. -/
def gA : Graph :=
  [(0, ⟨some [1], some "e", .undefined, none, .effect⟩),
   (1, ⟨some [2], some "c", .num 5, none, .computed⟩),
   (2, ⟨some [1], some "s", .num 3, none, .signal⟩)]

/-- An injector with no template consumer and effect node 0. -/
def injA : NodeInjectorModel := ⟨none, [0]⟩

end SignalDebug

/-!
The lazy recomputation of computed values (claim C7).  The reactive
primitives (`@angular/core/primitives/signals`) are not among the provided
sources: only the debug utilities referring to them are.  The model below
is therefore derived from the specification text alone.
-/

namespace Computed

/-- Modelled from the spec: the reactive-primitives package that implements
computed values is missing from the sources; this models the spec's
"producer/consumer dependency tracking used by computed values" with
"lazy recomputation": a computed node caches its value, a producer change
only marks it stale, and reading it reruns the computation only when it is
stale. -/
structure ComputedNode where
  cached : Int
  stale : Bool
  /-- Number of times the computation has been run. -/
  computeCount : Nat
  deriving DecidableEq

/-- Modelled from the spec: a producer change marks dependent computed
values stale; it does not run their computations. -/
def producerChanged (c : ComputedNode) : ComputedNode :=
  { c with stale := true }

/-- Modelled from the spec: reading a computed value returns the cached
value when fresh, and reruns the computation (of the producer value) only
when the node is stale. -/
def readComputed (f : Int → Int) (producerValue : Int) (c : ComputedNode) :
    Int × ComputedNode :=
  if c.stale then
    (f producerValue,
      { cached := f producerValue, stale := false, computeCount := c.computeCount + 1 })
  else (c.cached, c)

end Computed

namespace AfterRender

/-! ### Preservation lemmas for the manager model -/

@[simp] theorem setSeq_sequences (st : ManagerState) (id : Nat) (f : SeqState → SeqState) :
    (setSeq st id f).sequences = st.sequences := rfl

@[simp] theorem setSeq_deferred (st : ManagerState) (id : Nat) (f : SeqState → SeqState) :
    (setSeq st id f).deferredRegistrations = st.deferredRegistrations := rfl

@[simp] theorem setSeq_executing (st : ManagerState) (id : Nat) (f : SeqState → SeqState) :
    (setSeq st id f).executing = st.executing := rfl

@[simp] theorem setSeq_notifications (st : ManagerState) (id : Nat) (f : SeqState → SeqState) :
    (setSeq st id f).notifications = st.notifications := rfl

@[simp] theorem setSeq_hasErrorHandler (st : ManagerState) (id : Nat) (f : SeqState → SeqState) :
    (setSeq st id f).hasErrorHandler = st.hasErrorHandler := rfl

@[simp] theorem setSeq_store_same (st : ManagerState) (id : Nat) (f : SeqState → SeqState) :
    (setSeq st id f).store id = f (st.store id) := by simp [setSeq]

theorem setSeq_store_other (st : ManagerState) {i id : Nat} (h : i ≠ id)
    (f : SeqState → SeqState) : (setSeq st id f).store i = st.store i := by
  simp [setSeq, h]

theorem applyEffect_executing (st : ManagerState) (e : HookEffect) :
    (applyEffect st e).executing = st.executing := by
  cases e with
  | register id =>
    simp only [applyEffect, register]
    split <;> rfl
  | unregister id =>
    simp only [applyEffect, unregister]
    split <;> rfl

theorem applyEffect_hasErrorHandler (st : ManagerState) (e : HookEffect) :
    (applyEffect st e).hasErrorHandler = st.hasErrorHandler := by
  cases e with
  | register id =>
    simp only [applyEffect, register]
    split <;> rfl
  | unregister id =>
    simp only [applyEffect, unregister]
    split <;> rfl

theorem applyEffect_sequences_of_executing (st : ManagerState) (e : HookEffect)
    (h : st.executing = true) : (applyEffect st e).sequences = st.sequences := by
  cases e with
  | register id => simp [applyEffect, register, h]
  | unregister id =>
    simp only [applyEffect, unregister]
    split
    · rfl
    · rename_i hneg
      simp only []
      rw [List.erase_of_not_mem]
      intro hmem
      exact hneg ⟨h, hmem⟩

theorem applyEffects_executing (es : List HookEffect) (st : ManagerState) :
    (applyEffects st es).executing = st.executing := by
  induction es generalizing st with
  | nil => rfl
  | cons e es ih =>
    simp only [applyEffects, List.foldl_cons] at *
    rw [ih, applyEffect_executing]

theorem applyEffects_hasErrorHandler (es : List HookEffect) (st : ManagerState) :
    (applyEffects st es).hasErrorHandler = st.hasErrorHandler := by
  induction es generalizing st with
  | nil => rfl
  | cons e es ih =>
    simp only [applyEffects, List.foldl_cons] at *
    rw [ih, applyEffect_hasErrorHandler]

theorem applyEffects_sequences_of_executing (es : List HookEffect) (st : ManagerState)
    (h : st.executing = true) : (applyEffects st es).sequences = st.sequences := by
  induction es generalizing st with
  | nil => rfl
  | cons e es ih =>
    simp only [applyEffects, List.foldl_cons] at *
    rw [ih _ (by rw [applyEffect_executing]; exact h), applyEffect_sequences_of_executing _ _ h]

@[simp] theorem throwStep_executing (st : ManagerState) (id : Nat) :
    (throwStep st id).executing = st.executing := by
  unfold throwStep
  split <;> rfl

@[simp] theorem throwStep_sequences (st : ManagerState) (id : Nat) :
    (throwStep st id).sequences = st.sequences := by
  unfold throwStep
  split <;> rfl

theorem hookStep_executing (env : HookEnv) (phase : AfterRenderPhase) (st : ManagerState)
    (id : Nat) : (hookStep env phase st id).1.executing = st.executing := by
  unfold hookStep
  split
  · rfl
  · split
    · rfl
    · split <;> simp [applyEffects_executing]

theorem hookStep_sequences_of_executing (env : HookEnv) (phase : AfterRenderPhase)
    (st : ManagerState) (id : Nat) (h : st.executing = true) :
    (hookStep env phase st id).1.sequences = st.sequences := by
  unfold hookStep
  split
  · rfl
  · split
    · rfl
    · split <;> simp [applyEffects_sequences_of_executing _ _ h]

theorem hookStep_entry (env : HookEnv) (phase : AfterRenderPhase) (st : ManagerState)
    (id : Nat) (e : TraceEntry) (h : (hookStep env phase st id).2 = some e) :
    e.phase = phase ∧ e.seq = id := by
  unfold hookStep at h
  split at h
  · exact absurd h (by simp)
  · split at h
    · exact absurd h (by simp)
    · split at h <;>
      · simp only [Option.some.injEq] at h
        subst h
        exact ⟨rfl, rfl⟩

theorem runSeqHook_def (env : HookEnv) (phase : AfterRenderPhase) (st : ManagerState)
    (tr : List TraceEntry) (id : Nat) :
    runSeqHook env phase (st, tr) id =
      ((hookStep env phase st id).1, tr ++ (hookStep env phase st id).2.toList) := rfl

theorem runSeqHook_fold_state (env : HookEnv) (phase : AfterRenderPhase) (ids : List Nat)
    (st : ManagerState) (tr : List TraceEntry) (h : st.executing = true) :
    (ids.foldl (runSeqHook env phase) (st, tr)).1.executing = true ∧
    (ids.foldl (runSeqHook env phase) (st, tr)).1.sequences = st.sequences := by
  induction ids generalizing st tr with
  | nil => exact ⟨h, rfl⟩
  | cons id rest ih =>
    simp only [List.foldl_cons, runSeqHook_def]
    have hx : (hookStep env phase st id).1.executing = true := by
      rw [hookStep_executing]; exact h
    obtain ⟨h1, h2⟩ := ih (hookStep env phase st id).1
      (tr ++ (hookStep env phase st id).2.toList) hx
    exact ⟨h1, by rw [h2, hookStep_sequences_of_executing _ _ _ _ h]⟩

theorem runSeqHook_fold_trace (env : HookEnv) (phase : AfterRenderPhase) (ids : List Nat)
    (st : ManagerState) (tr : List TraceEntry) :
    ∃ δ, (ids.foldl (runSeqHook env phase) (st, tr)).2 = tr ++ δ ∧
      (∀ e ∈ δ, e.phase = phase) ∧ (δ.map TraceEntry.seq).Sublist ids := by
  induction ids generalizing st tr with
  | nil => exact ⟨[], by simp, by simp, by simp⟩
  | cons id rest ih =>
    simp only [List.foldl_cons, runSeqHook_def]
    rcases hstep : (hookStep env phase st id).2 with _ | e
    · obtain ⟨δ, hδ, hph, hsub⟩ := ih (hookStep env phase st id).1 (tr ++ [])
      refine ⟨δ, ?_, hph, hsub.cons id⟩
      simpa using hδ
    · obtain ⟨δ, hδ, hph, hsub⟩ := ih (hookStep env phase st id).1 (tr ++ [e])
      obtain ⟨hephase, heseq⟩ := hookStep_entry env phase st id e hstep
      refine ⟨e :: δ, ?_, ?_, ?_⟩
      · simpa [List.append_assoc] using hδ
      · intro x hx
        cases hx with
        | head => exact hephase
        | tail _ hx => exact hph x hx
      · simpa [heseq] using hsub.cons₂ id


theorem segment_countP_le_one (δ : List TraceEntry) (ids : List Nat) (s : Nat)
    (hsub : (δ.map TraceEntry.seq).Sublist ids) (hnd : ids.Nodup) (p : AfterRenderPhase) :
    (δ.countP fun e => decide (e.phase = p ∧ e.seq = s)) ≤ 1 := by
  have h1 : (δ.countP fun e => decide (e.phase = p ∧ e.seq = s)) ≤
      δ.countP fun e => e.seq == s := by
    apply List.countP_mono_left
    intro e _ he
    have := of_decide_eq_true he
    simpa using this.2
  have h2 : (δ.countP fun e => e.seq == s) = List.count s (δ.map TraceEntry.seq) := by
    rw [List.count_eq_countP, List.countP_map]
    rfl
  have h3 : List.count s (δ.map TraceEntry.seq) ≤ 1 :=
    List.nodup_iff_count_le_one.mp (List.Nodup.sublist hsub hnd) s
  omega

theorem runPhase_def (env : HookEnv) (p : AfterRenderPhase) (acc : ManagerState × List TraceEntry) :
    runPhase env p acc = acc.1.sequences.foldl (runSeqHook env p) acc := rfl

theorem runPhases_fold (env : HookEnv) (phases : List AfterRenderPhase) (st : ManagerState)
    (tr : List TraceEntry) (h : st.executing = true) :
    (phases.foldl (fun a p => runPhase env p a) (st, tr)).1.executing = true ∧
    (phases.foldl (fun a p => runPhase env p a) (st, tr)).1.sequences = st.sequences ∧
    ∃ δ, (phases.foldl (fun a p => runPhase env p a) (st, tr)).2 = tr ++ δ ∧
      (∀ e ∈ δ, e.phase ∈ phases) ∧
      (∀ e ∈ δ, e.seq ∈ st.sequences) ∧
      (phases.Pairwise (fun p q => phaseIdx p < phaseIdx q) →
        δ.Pairwise fun a b => phaseIdx a.phase ≤ phaseIdx b.phase) ∧
      (phases.Nodup → st.sequences.Nodup →
        ∀ p s, (δ.countP fun e => decide (e.phase = p ∧ e.seq = s)) ≤ 1) := by
  induction phases generalizing st tr with
  | nil =>
    refine ⟨h, rfl, [], by simp, by simp, by simp, by simp, by simp⟩
  | cons p rest ih =>
    simp only [List.foldl_cons]
    rw [runPhase_def]
    obtain ⟨hex1, hseq1⟩ := runSeqHook_fold_state env p st.sequences st tr h
    obtain ⟨δ₀, hδ₀, hph₀, hsub₀⟩ := runSeqHook_fold_trace env p st.sequences st tr
    set a₁ := st.sequences.foldl (runSeqHook env p) (st, tr) with ha₁
    obtain ⟨hex2, hseq2, δ₁, hδ₁, hph₁, hseqmem₁, hpair₁, hcnt₁⟩ := ih a₁.1 a₁.2 hex1
    simp only [Prod.mk.eta] at hex2 hseq2 hδ₁ hph₁ hseqmem₁ hpair₁ hcnt₁
    refine ⟨hex2, by rw [hseq2, hseq1], δ₀ ++ δ₁, ?_, ?_, ?_, ?_, ?_⟩
    · rw [hδ₁, hδ₀, List.append_assoc]
    · intro e he
      rcases List.mem_append.mp he with he | he
      · rw [hph₀ e he]
        exact List.mem_cons_self p rest
      · exact List.mem_cons_of_mem p (hph₁ e he)
    · intro e he
      rcases List.mem_append.mp he with he | he
      · exact hsub₀.subset (List.mem_map_of_mem TraceEntry.seq he)
      · exact hseq1 ▸ hseqmem₁ e he
    · intro hsorted
      obtain ⟨hhead, hrest⟩ := List.pairwise_cons.mp hsorted
      rw [List.pairwise_append]
      refine ⟨?_, hpair₁ hrest, ?_⟩
      · apply List.pairwise_of_forall_mem_list
        intro a ha b hb
        rw [hph₀ a ha, hph₀ b hb]
      · intro a ha b hb
        rw [hph₀ a ha]
        exact le_of_lt (hhead b.phase (hph₁ b hb))
    · intro hnd hnds p' s
      obtain ⟨hp_notin, hnd_rest⟩ := List.nodup_cons.mp hnd
      rw [List.countP_append]
      by_cases hpp : p' = p
      · subst hpp
        have hz : (δ₁.countP fun e => decide (e.phase = p' ∧ e.seq = s)) = 0 := by
          rw [List.countP_eq_zero]
          intro e he hdec
          exact hp_notin ((of_decide_eq_true hdec).1 ▸ hph₁ e he)
        have := segment_countP_le_one δ₀ st.sequences s hsub₀ hnds p'
        omega
      · have hz : (δ₀.countP fun e => decide (e.phase = p' ∧ e.seq = s)) = 0 := by
          rw [List.countP_eq_zero]
          intro e he hdec
          exact hpp ((of_decide_eq_true hdec).1 ▸ (hph₀ e he).symm ▸ rfl)
        have := hcnt₁ hnd_rest (hseq1 ▸ hnds) p' s
        omega

theorem executeTrace_eq (env : HookEnv) (st : ManagerState) :
    executeTrace env st =
      (AFTER_RENDER_PHASES.foldl (fun a p => runPhase env p a)
        ({ st with executing := true }, [])).2 := rfl

/-- C1: For every call to `AfterRenderImpl.execute()`, hooks run phase by
phase in the fixed order EarlyRead, Write, MixedReadWrite, Read: for any
two active sequences `s` and `t` and any phases `p` before `q`, `s`'s hook
for phase `p` is invoked before `t`'s hook for phase `q` (any trace entry
with a strictly earlier phase index occurs strictly earlier in the trace),
and within one execution each sequence's hook for a given phase is invoked
at most once. -/
theorem execute_phase_order_at_most_once (env : HookEnv) (st : ManagerState)
    (hnd : st.sequences.Nodup) :
    (∀ (i j : Fin (executeTrace env st).length),
        phaseIdx ((executeTrace env st).get i).phase <
          phaseIdx ((executeTrace env st).get j).phase → i < j) ∧
    (∀ p s, ((executeTrace env st).countP fun e => decide (e.phase = p ∧ e.seq = s)) ≤ 1) := by
  obtain ⟨-, -, δ, hδ, -, -, hpair, hcnt⟩ :=
    runPhases_fold env AFTER_RENDER_PHASES { st with executing := true } [] rfl
  have htr : executeTrace env st = δ := by
    rw [executeTrace_eq, hδ]
    simp
  have hpw : (executeTrace env st).Pairwise
      (fun a b => phaseIdx a.phase ≤ phaseIdx b.phase) := by
    rw [htr]
    exact hpair (by decide)
  constructor
  · intro i j hlt
    rcases lt_trichotomy (i : Nat) (j : Nat) with hij | hij | hij
    · exact hij
    · have : i = j := Fin.ext hij
      subst this
      exact absurd hlt (lt_irrefl _)
    · have hji : j < i := hij
      have := List.pairwise_iff_get.mp hpw j i hji
      omega
  · intro p s
    have := hcnt (by decide) hnd p s
    rw [htr]
    exact this

/-- Witness for C1: the ordering and at-most-once guarantees at a concrete
manager state with two active sequences. -/
theorem execute_phase_order_at_most_once_witness :
    st0.sequences.Nodup ∧
    ((∀ (i j : Fin (executeTrace env0 st0).length),
        phaseIdx ((executeTrace env0 st0).get i).phase <
          phaseIdx ((executeTrace env0 st0).get j).phase → i < j) ∧
      ∀ p s, ((executeTrace env0 st0).countP fun e => decide (e.phase = p ∧ e.seq = s)) ≤ 1) :=
  ⟨by decide, execute_phase_order_at_most_once env0 st0 (by decide)⟩

theorem mem_addIfAbsent {l : List Nat} {x y : Nat} :
    y ∈ addIfAbsent l x ↔ y ∈ l ∨ y = x := by
  unfold addIfAbsent
  split
  · rename_i hx
    constructor
    · exact Or.inl
    · rintro (h | rfl)
      · exact h
      · exact hx
  · simp [List.mem_append]

theorem mem_foldl_addIfAbsent (xs : List Nat) (l : List Nat) (y : Nat) :
    y ∈ xs.foldl addIfAbsent l ↔ y ∈ l ∨ y ∈ xs := by
  induction xs generalizing l with
  | nil => simp
  | cons x xs ih =>
    simp only [List.foldl_cons, ih, mem_addIfAbsent, List.mem_cons]
    tauto

theorem cleanupSeq_sequences_subset (st : ManagerState) (id : Nat) :
    (cleanupSeq st id).sequences ⊆ st.sequences := by
  unfold cleanupSeq
  dsimp only
  split
  · unfold destroySeq unregister
    dsimp only
    split
    · exact (List.erase_sublist _ _).subset
    · intro a ha
      simp only [setSeq_sequences] at ha ⊢
      exact (List.erase_sublist _ _).subset ((List.erase_sublist _ _).subset ha)
  · simp

theorem cleanup_fold_sequences_subset (ids : List Nat) (st : ManagerState) :
    ((ids.foldl cleanupSeq st).sequences) ⊆ st.sequences := by
  induction ids generalizing st with
  | nil => exact fun a ha => ha
  | cons id rest ih =>
    simp only [List.foldl_cons]
    exact fun a ha => cleanupSeq_sequences_subset st id (ih (cleanupSeq st id) ha)

theorem cleanup_sequences_subset (st : ManagerState) :
    (cleanup st).sequences ⊆ st.sequences :=
  cleanup_fold_sequences_subset st.sequences st

/-- C2: If `AfterRenderImpl.register(sequence)` is called while `execute()`
is running (`executing` is true), the sequence is put into
`deferredRegistrations` only (the active set and the notification log are
untouched); a sequence that is not in the active set when `execute()`
starts has none of its hooks invoked during that execution; the cleanup
step never adds a sequence to the active set; and the step after cleanup
moves the deferred registrations into the active set, notifies the
change-detection scheduler with `NotificationSource.DeferredRenderHook`,
and clears `deferredRegistrations`. -/
theorem register_during_execute_is_deferred (env : HookEnv) (st st' : ManagerState) (id : Nat) :
    (st.executing = true →
      register st id =
        { st with deferredRegistrations := addIfAbsent st.deferredRegistrations id }) ∧
    (id ∉ st.sequences → ∀ e ∈ executeTrace env st, e.seq ≠ id) ∧
    (id ∉ st'.sequences → id ∉ (cleanup st').sequences) ∧
    (id ∈ st'.deferredRegistrations →
      id ∈ (flushDeferred st').sequences ∧
      NotificationSource.DeferredRenderHook ∈ (flushDeferred st').notifications ∧
      (flushDeferred st').deferredRegistrations = []) := by
  refine ⟨?_, ?_, ?_, ?_⟩
  · intro h
    unfold register
    rw [if_pos h]
  · intro hid e he hseq
    obtain ⟨-, -, δ, hδ, -, hmem, -, -⟩ :=
      runPhases_fold env AFTER_RENDER_PHASES { st with executing := true } [] rfl
    have htr : executeTrace env st = δ := by
      rw [executeTrace_eq, hδ]
      simp
    rw [htr] at he
    exact hid (hseq ▸ hmem e he)
  · intro hid hmem
    exact hid (cleanup_sequences_subset st' hmem)
  · intro hid
    unfold flushDeferred
    dsimp only
    have hlen : st'.deferredRegistrations.length > 0 :=
      List.length_pos.mpr (List.ne_nil_of_mem hid)
    rw [if_pos hlen]
    refine ⟨?_, ?_, rfl⟩
    · exact (mem_foldl_addIfAbsent _ _ _).mpr (Or.inr hid)
    · simp

/-- Witness for C2 at concrete states: sequence 5 is not active in `st0`,
runs no hook during `execute`, and a deferred registration of 5 is
activated and notified by the post-cleanup step. -/
theorem register_during_execute_is_deferred_witness :
    (({ st0 with executing := true } : ManagerState).executing = true ∧
      register { st0 with executing := true } 5 =
        { ({ st0 with executing := true } : ManagerState) with
          deferredRegistrations :=
            addIfAbsent ({ st0 with executing := true } : ManagerState).deferredRegistrations 5 }) ∧
    ((5 : Nat) ∉ st0.sequences ∧ ∀ e ∈ executeTrace env0 st0, e.seq ≠ 5) ∧
    ((5 : Nat) ∈ ({ st0 with deferredRegistrations := [5] } : ManagerState).deferredRegistrations ∧
      5 ∈ (flushDeferred { st0 with deferredRegistrations := [5] }).sequences ∧
      NotificationSource.DeferredRenderHook ∈
        (flushDeferred { st0 with deferredRegistrations := [5] }).notifications ∧
      (flushDeferred { st0 with deferredRegistrations := [5] }).deferredRegistrations = []) :=
  ⟨⟨rfl, (register_during_execute_is_deferred env0 { st0 with executing := true } st0 5).1 rfl⟩,
    ⟨by decide, (register_during_execute_is_deferred env0 st0 st0 5).2.1 (by decide)⟩,
    ⟨by decide,
      (register_during_execute_is_deferred env0 st0 { st0 with deferredRegistrations := [5] }
        5).2.2.2 (by decide)⟩⟩
theorem applyEffect_store_errored_mono (st : ManagerState) (eff : HookEffect) (id : Nat)
    (h : ((st.store id)).erroredOrDestroyed = true) :
    (((applyEffect st eff).store id)).erroredOrDestroyed = true := by
  cases eff with
  | register j =>
    simp only [applyEffect, register]
    split <;> exact h
  | unregister j =>
    simp only [applyEffect, unregister]
    split
    · by_cases hji : id = j
      · subst hji
        simp [setSeq]
      · rw [setSeq_store_other _ hji]
        exact h
    · exact h

theorem applyEffects_store_errored_mono (es : List HookEffect) (st : ManagerState) (id : Nat)
    (h : ((st.store id)).erroredOrDestroyed = true) :
    (((applyEffects st es).store id)).erroredOrDestroyed = true := by
  induction es generalizing st with
  | nil => exact h
  | cons e es ih =>
    simp only [applyEffects, List.foldl_cons] at *
    exact ih _ (applyEffect_store_errored_mono st e id h)

theorem throwStep_store_errored_mono (st : ManagerState) (j id : Nat)
    (h : ((st.store id)).erroredOrDestroyed = true) :
    (((throwStep st j).store id)).erroredOrDestroyed = true := by
  unfold throwStep
  by_cases hji : id = j
  · subst hji
    split <;> simp [setSeq]
  · split <;> · rw [setSeq_store_other _ hji]; exact h

theorem hookStep_store_errored_mono (env : HookEnv) (phase : AfterRenderPhase)
    (st : ManagerState) (j id : Nat) (h : ((st.store id)).erroredOrDestroyed = true) :
    (((hookStep env phase st j).1.store id)).erroredOrDestroyed = true := by
  unfold hookStep
  split
  · exact h
  · split
    · exact h
    · split
      · rename_i v heq
        by_cases hji : id = j
        · subst hji
          simp [setSeq, applyEffects_store_errored_mono _ _ _ h]
        · rw [setSeq_store_other _ hji]
          exact applyEffects_store_errored_mono _ _ _ h
      · exact throwStep_store_errored_mono _ _ _ (applyEffects_store_errored_mono _ _ _ h)

theorem hookStep_errored_self (env : HookEnv) (phase : AfterRenderPhase) (st : ManagerState)
    (id : Nat) (h : ((st.store id)).erroredOrDestroyed = true) :
    hookStep env phase st id = (st, none) := by
  unfold hookStep
  rw [if_pos h]

theorem errored_no_hooks_inner (env : HookEnv) (phase : AfterRenderPhase) (ids : List Nat)
    (st : ManagerState) (tr : List TraceEntry) (id : Nat)
    (herr : ((st.store id)).erroredOrDestroyed = true) :
    (∀ e ∈ (ids.foldl (runSeqHook env phase) (st, tr)).2, e ∈ tr ∨ e.seq ≠ id) ∧
    (((ids.foldl (runSeqHook env phase) (st, tr)).1.store id)).erroredOrDestroyed = true := by
  induction ids generalizing st tr with
  | nil => exact ⟨fun e he => Or.inl he, herr⟩
  | cons j rest ih =>
    simp only [List.foldl_cons, runSeqHook_def]
    by_cases hji : j = id
    · subst hji
      rw [hookStep_errored_self env phase st j herr]
      simpa using ih st tr herr
    · have herr' := hookStep_store_errored_mono env phase st j id herr
      obtain ⟨h1, h2⟩ := ih (hookStep env phase st j).1 (tr ++ (hookStep env phase st j).2.toList) herr'
      refine ⟨?_, h2⟩
      intro e he
      rcases h1 e he with he' | he'
      · rcases List.mem_append.mp he' with he'' | he''
        · exact Or.inl he''
        · rcases hstep : (hookStep env phase st j).2 with _ | e₀
          · rw [hstep] at he''
            simp at he''
          · rw [hstep] at he''
            simp only [Option.toList_some, List.mem_singleton] at he''
            subst he''
            exact Or.inr ((hookStep_entry env phase st j e hstep).2 ▸ hji)
      · exact Or.inr he'

theorem errored_no_hooks_phases (env : HookEnv) (phases : List AfterRenderPhase)
    (st : ManagerState) (tr : List TraceEntry) (id : Nat)
    (herr : ((st.store id)).erroredOrDestroyed = true) :
    (∀ e ∈ (phases.foldl (fun a p => runPhase env p a) (st, tr)).2, e ∈ tr ∨ e.seq ≠ id) ∧
    (((phases.foldl (fun a p => runPhase env p a) (st, tr)).1.store id)).erroredOrDestroyed = true := by
  induction phases generalizing st tr with
  | nil => exact ⟨fun e he => Or.inl he, herr⟩
  | cons p rest ih =>
    simp only [List.foldl_cons]
    rw [runPhase_def]
    obtain ⟨h1, h2⟩ := errored_no_hooks_inner env p st.sequences st tr id herr
    set a₁ := st.sequences.foldl (runSeqHook env p) (st, tr) with ha₁
    obtain ⟨h3, h4⟩ := ih a₁.1 a₁.2 h2
    simp only [Prod.mk.eta] at h3 h4
    refine ⟨?_, h4⟩
    intro e he
    rcases h3 e he with he' | he'
    · exact h1 e he'
    · exact Or.inr he'
theorem cleanupSeq_nodup (st : ManagerState) (j : Nat) (h : st.sequences.Nodup) :
    (cleanupSeq st j).sequences.Nodup := by
  unfold cleanupSeq
  dsimp only
  split
  · unfold destroySeq unregister
    dsimp only
    split
    · simpa using h.erase j
    · simpa using (h.erase j).erase j
  · simpa using h

theorem cleanupSeq_once_mono (st : ManagerState) (j id : Nat)
    (h : ((st.store id)).once = true) : (((cleanupSeq st j).store id)).once = true := by
  unfold cleanupSeq
  dsimp only
  have hafter : (((setSeq st j fun s =>
      { s with erroredOrDestroyed := false, pipelinedValue := JSValue.undefined }).store id)).once
      = true := by
    by_cases hij : id = j
    · subst hij; simpa [setSeq] using h
    · rw [setSeq_store_other _ hij]; exact h
  split
  · unfold destroySeq unregister
    dsimp only
    split
    · by_cases hij : id = j
      · subst hij; simp [setSeq]
      · rw [setSeq_store_other _ hij]; exact hafter
    · exact hafter
  · exact hafter

theorem cleanupSeq_destroyed_mono (st : ManagerState) (j : Nat) :
    ∀ x ∈ st.destroyed, x ∈ (cleanupSeq st j).destroyed := by
  intro x hx
  unfold cleanupSeq
  dsimp only
  split
  · unfold destroySeq unregister
    dsimp only
    split
    · simpa [setSeq] using Or.inl hx
    · simpa using Or.inl hx
  · simpa using hx

theorem cleanup_fold_destroyed_mono (ids : List Nat) (st : ManagerState) :
    ∀ x ∈ st.destroyed, x ∈ (ids.foldl cleanupSeq st).destroyed := by
  induction ids generalizing st with
  | nil => exact fun x hx => hx
  | cons j rest ih =>
    intro x hx
    simp only [List.foldl_cons]
    exact ih (cleanupSeq st j) x (cleanupSeq_destroyed_mono st j x hx)

theorem cleanupSeq_self_removes (st : ManagerState) (id : Nat)
    (hnd : st.sequences.Nodup) (honce : ((st.store id)).once = true) :
    id ∉ (cleanupSeq st id).sequences ∧ id ∈ (cleanupSeq st id).destroyed := by
  unfold cleanupSeq
  dsimp only
  rw [if_pos (by simpa [setSeq] using honce)]
  unfold destroySeq unregister
  dsimp only
  split
  · rename_i hcond
    exact absurd hcond.2 (by simpa using hnd.not_mem_erase)
  · constructor
    · simp only [setSeq_sequences]
      intro hmem
      exact hnd.not_mem_erase ((List.erase_sublist _ _).subset hmem)
    · simp

theorem cleanup_fold_removes (ids : List Nat) (st : ManagerState) (id : Nat)
    (hnd : st.sequences.Nodup) (honce : ((st.store id)).once = true) :
    ((id ∈ ids ∨ id ∉ st.sequences) → id ∉ (ids.foldl cleanupSeq st).sequences) ∧
    (id ∈ ids → id ∈ (ids.foldl cleanupSeq st).destroyed) := by
  induction ids generalizing st with
  | nil =>
    refine ⟨?_, ?_⟩
    · rintro (h | h)
      · simp at h
      · exact h
    · intro h; simp at h
  | cons j rest ih =>
    simp only [List.foldl_cons]
    by_cases hji : j = id
    · subst hji
      obtain ⟨hout, hdes⟩ := cleanupSeq_self_removes st j hnd honce
      refine ⟨?_, ?_⟩
      · intro _
        intro hmem
        exact hout (cleanup_fold_sequences_subset rest (cleanupSeq st j) hmem)
      · intro _
        exact cleanup_fold_destroyed_mono rest (cleanupSeq st j) j hdes
    · obtain ⟨ih1, ih2⟩ := ih (cleanupSeq st j) (cleanupSeq_nodup st j hnd)
        (cleanupSeq_once_mono st j id honce)
      refine ⟨?_, ?_⟩
      · rintro (h | h)
        · rcases List.mem_cons.mp h with h | h
          · exact absurd h.symm hji
          · exact ih1 (Or.inl h)
        · exact ih1 (Or.inr fun hm => h (cleanupSeq_sequences_subset st j hm))
      · intro h
        rcases List.mem_cons.mp h with h | h
        · exact absurd h.symm hji
        · exact ih2 h

/-- C3: calling `unregister` while `execute()` is running on a sequence in
the active set marks its object `erroredOrDestroyed` with `pipelinedValue`
cleared and `once` set (it is not removed mid-iteration); a sequence whose
object is flagged `erroredOrDestroyed` contributes no further hook
invocation for the remainder of the phase loop; a flagged (`once`)
sequence is removed from the active set and destroyed by the cleanup loop
at the end of the execution; and `unregister` when not executing (or on a
sequence outside the active set) removes the sequence immediately from
both the active set and the deferred registrations. -/
theorem unregister_during_execute (env : HookEnv) (st : ManagerState) (id : Nat)
    (phases : List AfterRenderPhase) (tr : List TraceEntry) :
    (st.executing = true → id ∈ st.sequences →
      unregister st id = setSeq st id fun s =>
        { s with erroredOrDestroyed := true, pipelinedValue := .undefined, once := true }) ∧
    (((st.store id)).erroredOrDestroyed = true →
      ∀ e ∈ (phases.foldl (fun a p => runPhase env p a) (st, tr)).2, e ∈ tr ∨ e.seq ≠ id) ∧
    (st.sequences.Nodup → ((st.store id)).once = true →
      id ∉ (cleanup st).sequences ∧ (id ∈ st.sequences → id ∈ (cleanup st).destroyed)) ∧
    (¬(st.executing = true ∧ id ∈ st.sequences) →
      unregister st id = { st with
        sequences := st.sequences.erase id
        deferredRegistrations := st.deferredRegistrations.erase id }) := by
  refine ⟨?_, ?_, ?_, ?_⟩
  · intro h1 h2
    unfold unregister
    rw [if_pos ⟨h1, h2⟩]
  · intro herr
    exact (errored_no_hooks_phases env phases st tr id herr).1
  · intro hnd honce
    unfold cleanup
    obtain ⟨h1, h2⟩ := cleanup_fold_removes st.sequences st id hnd honce
    refine ⟨?_, h2⟩
    by_cases hmem : id ∈ st.sequences
    · exact h1 (Or.inl hmem)
    · exact h1 (Or.inr hmem)
  · intro h
    unfold unregister
    rw [if_neg h]

/-- Witness for C3 at concrete states: unregistering active sequence 0
mid-execution flags it; flagged sequence 1 of `stFlag` runs no hook in the
phase loop and is removed and destroyed by cleanup; unregistering 2 from
the resting `st0` erases it from both lists. -/
theorem unregister_during_execute_witness :
    (({ st0 with executing := true } : ManagerState).executing = true ∧
      0 ∈ ({ st0 with executing := true } : ManagerState).sequences ∧
      unregister { st0 with executing := true } 0 =
        setSeq { st0 with executing := true } 0 fun s =>
          { s with erroredOrDestroyed := true, pipelinedValue := .undefined, once := true }) ∧
    (((stFlag.store 1)).erroredOrDestroyed = true ∧
      ∀ e ∈ (AFTER_RENDER_PHASES.foldl (fun a p => runPhase env0 p a) (stFlag, [])).2,
        e ∈ ([] : List TraceEntry) ∨ e.seq ≠ 1) ∧
    (stFlag.sequences.Nodup ∧ ((stFlag.store 1)).once = true ∧
      1 ∉ (cleanup stFlag).sequences ∧ (1 ∈ stFlag.sequences → 1 ∈ (cleanup stFlag).destroyed)) ∧
    (¬(st0.executing = true ∧ 2 ∈ st0.sequences) ∧
      unregister st0 2 = { st0 with
        sequences := st0.sequences.erase 2
        deferredRegistrations := st0.deferredRegistrations.erase 2 }) := by
  refine ⟨⟨rfl, by decide, ?_⟩, ⟨by decide, ?_⟩, ⟨by decide, by decide, ?_, ?_⟩, ⟨by decide, ?_⟩⟩
  · exact (unregister_during_execute env0 { st0 with executing := true } 0 [] []).1 rfl (by decide)
  · exact (unregister_during_execute env0 stFlag 1 AFTER_RENDER_PHASES []).2.1 (by decide)
  · exact ((unregister_during_execute env0 stFlag 1 [] []).2.2.1 (by decide) (by decide)).1
  · exact ((unregister_during_execute env0 stFlag 1 [] []).2.2.1 (by decide) (by decide)).2
  · exact (unregister_during_execute env0 st0 2 [] []).2.2.2 (by decide)

/-- C4: `execute()` is deterministic: two runs started from componentwise
identical manager states (same active and deferred sequence lists, same
flags, logs and per-object sequence states) whose hook environments behave
identically (the same hooks present, and pointwise equal outcomes on every
value) invoke the same hooks in the same order (equal traces) and produce
identical final manager and sequence state. -/
theorem execute_deterministic (env₁ env₂ : HookEnv) (st₁ st₂ : ManagerState)
    (hbeh : ∀ id p v, ((env₁ id p).map fun h => h v) = ((env₂ id p).map fun h => h v))
    (hseq : st₁.sequences = st₂.sequences)
    (hdef : st₁.deferredRegistrations = st₂.deferredRegistrations)
    (hexe : st₁.executing = st₂.executing)
    (hsto : ∀ i, st₁.store i = st₂.store i)
    (hnot : st₁.notifications = st₂.notifications)
    (herh : st₁.hasErrorHandler = st₂.hasErrorHandler)
    (hher : st₁.handledErrors = st₂.handledErrors)
    (hdes : st₁.destroyed = st₂.destroyed) :
    executeT env₁ st₁ = executeT env₂ st₂ := by
  have henv : env₁ = env₂ := by
    funext id p
    rcases he1 : env₁ id p with _ | h₁ <;> rcases he2 : env₂ id p with _ | h₂
    · rfl
    · have := hbeh id p JSValue.undefined
      rw [he1, he2] at this
      simp at this
    · have := hbeh id p JSValue.undefined
      rw [he1, he2] at this
      simp at this
    · congr 1
      funext v
      have := hbeh id p v
      rw [he1, he2] at this
      simpa using this
  have hst : st₁ = st₂ := by
    have hsto' : st₁.store = st₂.store := funext hsto
    cases st₁
    cases st₂
    simp_all
  rw [henv, hst]

/-- Witness for C4: the determinism theorem applied to `env0`/`st0` against
themselves. -/
theorem execute_deterministic_witness :
    (∀ id p v, ((env0 id p).map fun h => h v) = ((env0 id p).map fun h => h v)) ∧
    executeT env0 st0 = executeT env0 st0 :=
  ⟨fun _ _ _ => rfl,
    execute_deterministic env0 env0 st0 st0 (fun _ _ _ => rfl) rfl rfl rfl (fun _ => rfl)
      rfl rfl rfl rfl⟩

theorem hookStep_cases (env : HookEnv) (phase : AfterRenderPhase) (st : ManagerState) (id : Nat) :
    (hookStep env phase st id = (st, none) ∧
      (((st.store id)).erroredOrDestroyed = true ∨ env id phase = none)) ∨
    (∃ hook v es, env id phase = some hook ∧ ((st.store id)).erroredOrDestroyed = false ∧
      hook (((st.store id)).pipelinedValue) = ⟨es, .ok v⟩ ∧
      hookStep env phase st id =
        (setSeq (applyEffects st es) id (fun q => { q with pipelinedValue := v }),
          some ⟨phase, id, ((st.store id)).pipelinedValue, .ok v⟩)) ∨
    (∃ hook err es, env id phase = some hook ∧ ((st.store id)).erroredOrDestroyed = false ∧
      hook (((st.store id)).pipelinedValue) = ⟨es, .error err⟩ ∧
      hookStep env phase st id =
        (throwStep (applyEffects st es) id,
          some ⟨phase, id, ((st.store id)).pipelinedValue, .error err⟩)) := by
  unfold hookStep
  split
  · rename_i herr
    exact Or.inl ⟨rfl, Or.inl (by simpa using herr)⟩
  · rename_i herr
    split
    · rename_i hnone
      exact Or.inl ⟨rfl, Or.inr hnone⟩
    · rename_i hook hsome
      split
      · rename_i es v hout
        refine Or.inr (Or.inl ⟨hook, v, es, hsome, by simpa using herr, ?_, rfl⟩)
        rw [hout]
      · rename_i es err hout
        refine Or.inr (Or.inr ⟨hook, err, es, hsome, by simpa using herr, ?_, rfl⟩)
        rw [hout]

theorem applyEffect_store_cases (st : ManagerState) (eff : HookEffect) (s : Nat) :
    ((applyEffect st eff).store s) = st.store s ∨
    (((applyEffect st eff).store s)).erroredOrDestroyed = true := by
  cases eff with
  | register j =>
    simp only [applyEffect, register]
    split <;> exact Or.inl rfl
  | unregister j =>
    simp only [applyEffect, unregister]
    split
    · by_cases hsj : s = j
      · subst hsj
        exact Or.inr (by simp [setSeq])
      · exact Or.inl (setSeq_store_other _ hsj _)
    · exact Or.inl rfl

theorem applyEffects_store_cases (es : List HookEffect) (st : ManagerState) (s : Nat) :
    ((applyEffects st es).store s) = st.store s ∨
    (((applyEffects st es).store s)).erroredOrDestroyed = true := by
  induction es generalizing st with
  | nil => exact Or.inl rfl
  | cons e es ih =>
    simp only [applyEffects, List.foldl_cons] at *
    rcases applyEffect_store_cases st e s with h | h
    · rcases ih (applyEffect st e) with h' | h'
      · exact Or.inl (h ▸ h')
      · exact Or.inr h'
    · exact Or.inr (applyEffects_store_errored_mono es _ s h)

theorem throwStep_store_self (st : ManagerState) (j : Nat) :
    (((throwStep st j).store j)).erroredOrDestroyed = true := by
  unfold throwStep
  split <;> simp [setSeq]

theorem throwStep_store_other (st : ManagerState) {s j : Nat} (h : s ≠ j) :
    ((throwStep st j).store s) = st.store s := by
  unfold throwStep
  split <;> simp [setSeq, h]

theorem pipeline_inner (env : HookEnv) (phase : AfterRenderPhase) (ids : List Nat)
    (st : ManagerState) (tr : List TraceEntry) (s : Nat)
    (hch : (tr.filter fun e => e.seq == s).Chain'
      fun a b => ∀ v, a.result = Except.ok v → b.arg = v)
    (hlast : ((st.store s)).erroredOrDestroyed = false →
      ∀ e, (tr.filter fun e => e.seq == s).getLast? = some e →
        e.result = Except.ok (((st.store s)).pipelinedValue)) :
    ((ids.foldl (runSeqHook env phase) (st, tr)).2.filter fun e => e.seq == s).Chain'
      (fun a b => ∀ v, a.result = Except.ok v → b.arg = v) ∧
    ((((ids.foldl (runSeqHook env phase) (st, tr)).1.store s)).erroredOrDestroyed = false →
      ∀ e, ((ids.foldl (runSeqHook env phase) (st, tr)).2.filter
          fun e => e.seq == s).getLast? = some e →
        e.result = Except.ok
          ((((ids.foldl (runSeqHook env phase) (st, tr)).1.store s)).pipelinedValue)) := by
  induction ids generalizing st tr with
  | nil => exact ⟨hch, hlast⟩
  | cons id rest ih =>
    simp only [List.foldl_cons, runSeqHook_def]
    rcases hookStep_cases env phase st id with ⟨heq, -⟩ | hcase | hcase
    · rw [heq]
      simpa using ih st tr hch hlast
    · obtain ⟨hook, v, es, hsome, herr, hout, heq⟩ := hcase
      rw [heq]
      dsimp only [Option.toList]
      by_cases hs : id = s
      · subst hs
        have hfil : ((tr ++ [(⟨phase, id, ((st.store id)).pipelinedValue,
            Except.ok v⟩ : TraceEntry)]).filter fun e => e.seq == id) =
            (tr.filter fun e => e.seq == id) ++
              [⟨phase, id, ((st.store id)).pipelinedValue, Except.ok v⟩] := by
          rw [List.filter_append]
          simp [List.filter_cons]
        apply ih
        · rw [hfil]
          rw [List.chain'_append]
          refine ⟨hch, List.chain'_singleton _, ?_⟩
          intro x hx y hy
          simp only [List.head?_cons, Option.mem_def, Option.some.injEq] at hy
          subst hy
          intro w hw
          have := hlast herr x hx
          rw [this] at hw
          simpa using hw
        · intro herr' e he
          rw [hfil, List.getLast?_concat] at he
          have he' : (⟨phase, id, ((st.store id)).pipelinedValue,
              Except.ok v⟩ : TraceEntry) = e := by
            simpa using he
          subst he'
          simp [setSeq]
      · have hfil : ((tr ++ [(⟨phase, id, ((st.store id)).pipelinedValue,
            Except.ok v⟩ : TraceEntry)]).filter fun e => e.seq == s) =
            tr.filter fun e => e.seq == s := by
          rw [List.filter_append]
          simp [List.filter_cons, hs]
        apply ih
        · rw [hfil]; exact hch
        · rw [hfil]
          rw [setSeq_store_other _ (fun h => hs h.symm)]
          rcases applyEffects_store_cases es st s with hsame | herr2
          · rw [hsame]
            exact hlast
          · intro hfalse
            rw [herr2] at hfalse
            exact absurd hfalse (by simp)
    · obtain ⟨hook, err, es, hsome, herr, hout, heq⟩ := hcase
      rw [heq]
      dsimp only [Option.toList]
      by_cases hs : id = s
      · subst hs
        have hfil : ((tr ++ [(⟨phase, id, ((st.store id)).pipelinedValue,
            Except.error err⟩ : TraceEntry)]).filter fun e => e.seq == id) =
            (tr.filter fun e => e.seq == id) ++
              [⟨phase, id, ((st.store id)).pipelinedValue, Except.error err⟩] := by
          rw [List.filter_append]
          simp [List.filter_cons]
        apply ih
        · rw [hfil]
          rw [List.chain'_append]
          refine ⟨hch, List.chain'_singleton _, ?_⟩
          intro x hx y hy
          simp only [List.head?_cons, Option.mem_def, Option.some.injEq] at hy
          subst hy
          intro w hw
          have := hlast herr x hx
          rw [this] at hw
          simpa using hw
        · intro hfalse
          rw [throwStep_store_self] at hfalse
          exact absurd hfalse (by simp)
      · have hfil : ((tr ++ [(⟨phase, id, ((st.store id)).pipelinedValue,
            Except.error err⟩ : TraceEntry)]).filter fun e => e.seq == s) =
            tr.filter fun e => e.seq == s := by
          rw [List.filter_append]
          simp [List.filter_cons, hs]
        apply ih
        · rw [hfil]; exact hch
        · rw [hfil]
          rw [throwStep_store_other _ (fun h => hs h.symm)]
          rcases applyEffects_store_cases es st s with hsame | herr2
          · rw [hsame]
            exact hlast
          · intro hfalse
            rw [herr2] at hfalse
            exact absurd hfalse (by simp)

theorem pipeline_phases (env : HookEnv) (phases : List AfterRenderPhase)
    (st : ManagerState) (tr : List TraceEntry) (s : Nat)
    (hch : (tr.filter fun e => e.seq == s).Chain'
      fun a b => ∀ v, a.result = Except.ok v → b.arg = v)
    (hlast : ((st.store s)).erroredOrDestroyed = false →
      ∀ e, (tr.filter fun e => e.seq == s).getLast? = some e →
        e.result = Except.ok (((st.store s)).pipelinedValue)) :
    ((phases.foldl (fun a p => runPhase env p a) (st, tr)).2.filter
        fun e => e.seq == s).Chain'
      (fun a b => ∀ v, a.result = Except.ok v → b.arg = v) := by
  induction phases generalizing st tr with
  | nil => exact hch
  | cons p rest ih =>
    simp only [List.foldl_cons]
    rw [runPhase_def]
    obtain ⟨h1, h2⟩ := pipeline_inner env p st.sequences st tr s hch hlast
    set a₁ := st.sequences.foldl (runSeqHook env p) (st, tr) with ha₁
    have := ih a₁.1 a₁.2 h1 h2
    simpa only [Prod.mk.eta] using this

theorem applyEffect_pipelined_undef (st : ManagerState) (eff : HookEffect) (j : Nat)
    (h : ((st.store j)).pipelinedValue = .undefined) :
    (((applyEffect st eff).store j)).pipelinedValue = .undefined := by
  cases eff with
  | register k =>
    simp only [applyEffect, register]
    split <;> exact h
  | unregister k =>
    simp only [applyEffect, unregister]
    split
    · by_cases hjk : j = k
      · subst hjk
        simp [setSeq]
      · rw [setSeq_store_other _ hjk]
        exact h
    · exact h

theorem applyEffects_pipelined_undef (es : List HookEffect) (st : ManagerState) (j : Nat)
    (h : ((st.store j)).pipelinedValue = .undefined) :
    (((applyEffects st es).store j)).pipelinedValue = .undefined := by
  induction es generalizing st with
  | nil => exact h
  | cons e es ih =>
    simp only [applyEffects, List.foldl_cons] at *
    exact ih _ (applyEffect_pipelined_undef st e j h)

theorem hookStep_pipelined_undef (env : HookEnv) (phase : AfterRenderPhase)
    (st : ManagerState) (id j : Nat) (hne : id ≠ j)
    (h : ((st.store j)).pipelinedValue = .undefined) :
    (((hookStep env phase st id).1.store j)).pipelinedValue = .undefined := by
  rcases hookStep_cases env phase st id with ⟨heq, -⟩ | hcase | hcase
  · rw [heq]
    exact h
  · obtain ⟨hook, v, es, -, -, -, heq⟩ := hcase
    rw [heq]
    dsimp only
    rw [setSeq_store_other _ (fun hh => hne hh.symm)]
    exact applyEffects_pipelined_undef es st j h
  · obtain ⟨hook, err, es, -, -, -, heq⟩ := hcase
    rw [heq]
    dsimp only
    rw [throwStep_store_other _ (fun hh => hne hh.symm)]
    exact applyEffects_pipelined_undef es st j h

theorem inner_pipelined_undef (env : HookEnv) (phase : AfterRenderPhase) (ids : List Nat)
    (st : ManagerState) (tr : List TraceEntry) (j : Nat) (hnotin : j ∉ ids)
    (h : ((st.store j)).pipelinedValue = .undefined) :
    (((ids.foldl (runSeqHook env phase) (st, tr)).1.store j)).pipelinedValue = .undefined := by
  induction ids generalizing st tr with
  | nil => exact h
  | cons id rest ih =>
    simp only [List.foldl_cons, runSeqHook_def]
    have hne : id ≠ j := fun hh => hnotin (hh ▸ List.mem_cons_self id rest)
    exact ih _ _ (fun hh => hnotin (List.mem_cons_of_mem id hh))
      (hookStep_pipelined_undef env phase st id j hne h)

theorem phases_pipelined_undef (env : HookEnv) (phases : List AfterRenderPhase)
    (st : ManagerState) (tr : List TraceEntry) (j : Nat) (hexec : st.executing = true)
    (hnotin : j ∉ st.sequences)
    (h : ((st.store j)).pipelinedValue = .undefined) :
    (((phases.foldl (fun a p => runPhase env p a) (st, tr)).1.store j)).pipelinedValue =
      .undefined := by
  induction phases generalizing st tr with
  | nil => exact h
  | cons p rest ih =>
    simp only [List.foldl_cons]
    rw [runPhase_def]
    obtain ⟨hex1, hseq1⟩ := runSeqHook_fold_state env p st.sequences st tr hexec
    set a₁ := st.sequences.foldl (runSeqHook env p) (st, tr) with ha₁
    have hu := inner_pipelined_undef env p st.sequences st tr j hnotin h
    have := ih a₁.1 a₁.2 hex1 (hseq1 ▸ hnotin) hu
    simpa only [Prod.mk.eta] using this

theorem cleanupSeq_pipelined_self (st : ManagerState) (k : Nat) :
    (((cleanupSeq st k).store k)).pipelinedValue = .undefined := by
  unfold cleanupSeq
  dsimp only
  split
  · unfold destroySeq unregister
    dsimp only
    split
    · simp [setSeq]
    · simp [setSeq]
  · simp [setSeq]

theorem cleanupSeq_pipelined_mono (st : ManagerState) (k j : Nat)
    (h : ((st.store j)).pipelinedValue = .undefined) :
    (((cleanupSeq st k).store j)).pipelinedValue = .undefined := by
  by_cases hjk : j = k
  · subst hjk
    exact cleanupSeq_pipelined_self st j
  · unfold cleanupSeq
    dsimp only
    split
    · unfold destroySeq unregister
      dsimp only
      split
      · rw [setSeq_store_other _ hjk, setSeq_store_other _ hjk]
        exact h
      · rw [setSeq_store_other _ hjk]
        exact h
    · rw [setSeq_store_other _ hjk]
      exact h

theorem cleanup_fold_pipelined (ids : List Nat) (st : ManagerState) (j : Nat)
    (h : j ∈ ids ∨ ((st.store j)).pipelinedValue = .undefined) :
    (((ids.foldl cleanupSeq st).store j)).pipelinedValue = .undefined := by
  induction ids generalizing st with
  | nil =>
    rcases h with h | h
    · simp at h
    · exact h
  | cons k rest ih =>
    simp only [List.foldl_cons]
    by_cases hjk : j = k
    · subst hjk
      exact ih _ (Or.inr (cleanupSeq_pipelined_self st j))
    · rcases h with h | h
      · rcases List.mem_cons.mp h with h | h
        · exact absurd h hjk
        · exact ih _ (Or.inl h)
      · exact ih _ (Or.inr (cleanupSeq_pipelined_mono st k j h))

theorem flushDeferred_store (st : ManagerState) : (flushDeferred st).store = st.store := by
  unfold flushDeferred
  dsimp only
  split <;> rfl

theorem execute_eq (env : HookEnv) (st : ManagerState) :
    execute env st = flushDeferred (cleanup
      { (AFTER_RENDER_PHASES.foldl (fun a p => runPhase env p a)
          ({ st with executing := true }, [])).1 with executing := false }) := rfl

/-- C8: within a single `execute()`, for each sequence the value returned
by its hook in one phase is passed as the argument to its hook in the next
phase for which the sequence has a hook (the per-sequence subtrace is
chained: an entry whose result is `ok v` is followed, if by anything, by an
entry whose argument is `v`; phases without a hook contribute no entry and
leave the pipelined value untouched), and after the execution's cleanup
step every sequence object's `pipelinedValue` is `undefined` (given the
cross-execution invariant that objects outside the active set start at
`undefined`), so no value flows between executions. -/
theorem execute_pipelined_chain (env : HookEnv) (st : ManagerState) (s : Nat)
    (hundef : ∀ j, j ∉ st.sequences → ((st.store j)).pipelinedValue = .undefined) :
    ((executeTrace env st).filter fun e => e.seq == s).Chain'
      (fun a b => ∀ v, a.result = Except.ok v → b.arg = v) ∧
    ∀ j, (((execute env st).store j)).pipelinedValue = .undefined := by
  constructor
  · rw [executeTrace_eq]
    exact pipeline_phases env AFTER_RENDER_PHASES { st with executing := true } [] s
      (by simp) (by simp)
  · intro j
    obtain ⟨-, hseqs, -⟩ :=
      runPhases_fold env AFTER_RENDER_PHASES { st with executing := true } [] rfl
    rw [execute_eq, flushDeferred_store]
    unfold cleanup
    apply cleanup_fold_pipelined
    by_cases hj : j ∈ st.sequences
    · left
      show j ∈ (AFTER_RENDER_PHASES.foldl (fun a p => runPhase env p a)
          ({ st with executing := true }, [])).1.sequences
      rw [hseqs]
      exact hj
    · right
      show (((AFTER_RENDER_PHASES.foldl (fun a p => runPhase env p a)
          ({ st with executing := true }, [])).1.store j)).pipelinedValue = .undefined
      exact phases_pipelined_undef env AFTER_RENDER_PHASES { st with executing := true } [] j
        rfl hj (hundef j hj)

/-- Witness for C8: the pipelining chain and the reset of all pipelined
values at the concrete manager `st0` with hooks `env0`. -/
theorem execute_pipelined_chain_witness :
    (∀ j, j ∉ st0.sequences → ((st0.store j)).pipelinedValue = .undefined) ∧
    ((executeTrace env0 st0).filter fun e => e.seq == 0).Chain'
      (fun a b => ∀ v, a.result = Except.ok v → b.arg = v) ∧
    ∀ j, (((execute env0 st0).store j)).pipelinedValue = .undefined :=
  ⟨fun j _ => rfl, execute_pipelined_chain env0 st0 0 fun j _ => rfl⟩

theorem applyEffect_handledErrors (st : ManagerState) (eff : HookEffect) :
    (applyEffect st eff).handledErrors = st.handledErrors := by
  cases eff with
  | register j =>
    simp only [applyEffect, register]
    split <;> rfl
  | unregister j =>
    simp only [applyEffect, unregister]
    split <;> rfl

theorem applyEffects_handledErrors (es : List HookEffect) (st : ManagerState) :
    (applyEffects st es).handledErrors = st.handledErrors := by
  induction es generalizing st with
  | nil => rfl
  | cons e es ih =>
    simp only [applyEffects, List.foldl_cons] at *
    rw [ih, applyEffect_handledErrors]

theorem throwStep_handledErrors (st : ManagerState) (j : Nat) (h : st.hasErrorHandler = true) :
    (throwStep st j).handledErrors = st.handledErrors + 1 := by
  unfold throwStep
  rw [if_pos h]

theorem throwStep_hasErrorHandler (st : ManagerState) (j : Nat) :
    (throwStep st j).hasErrorHandler = st.hasErrorHandler := by
  unfold throwStep
  split <;> rfl

theorem inner_handledErrors (env : HookEnv) (phase : AfterRenderPhase) (ids : List Nat)
    (st : ManagerState) (tr : List TraceEntry) (hEH : st.hasErrorHandler = true) :
    ∃ δ, (ids.foldl (runSeqHook env phase) (st, tr)).2 = tr ++ δ ∧
      (ids.foldl (runSeqHook env phase) (st, tr)).1.handledErrors =
        st.handledErrors + (δ.countP fun e => decide (e.result = Except.error ())) ∧
      (ids.foldl (runSeqHook env phase) (st, tr)).1.hasErrorHandler = true := by
  induction ids generalizing st tr with
  | nil => exact ⟨[], by simp, by simp, hEH⟩
  | cons id rest ih =>
    simp only [List.foldl_cons, runSeqHook_def]
    rcases hookStep_cases env phase st id with ⟨heq, -⟩ | hcase | hcase
    · rw [heq]
      simp only [Option.toList, List.append_nil]
      exact ih st tr hEH
    · obtain ⟨hook, v, es, -, -, -, heq⟩ := hcase
      rw [heq]
      dsimp only [Option.toList]
      have hEH1 : (setSeq (applyEffects st es) id fun q =>
          { q with pipelinedValue := v }).hasErrorHandler = true := by
        rw [setSeq_hasErrorHandler, applyEffects_hasErrorHandler]
        exact hEH
      obtain ⟨δ, h1, h2, h3⟩ := ih _ _ hEH1
      refine ⟨⟨phase, id, ((st.store id)).pipelinedValue, Except.ok v⟩ :: δ, ?_, ?_, h3⟩
      · rw [h1, List.append_assoc]
        rfl
      · rw [h2]
        simp only [setSeq]
        rw [applyEffects_handledErrors]
        simp [List.countP_cons]
    · obtain ⟨hook, err, es, -, -, -, heq⟩ := hcase
      rw [heq]
      dsimp only [Option.toList]
      have hEH1 : (throwStep (applyEffects st es) id).hasErrorHandler = true := by
        rw [throwStep_hasErrorHandler, applyEffects_hasErrorHandler]
        exact hEH
      obtain ⟨δ, h1, h2, h3⟩ := ih _ _ hEH1
      refine ⟨⟨phase, id, ((st.store id)).pipelinedValue, Except.error err⟩ :: δ, ?_, ?_, h3⟩
      · rw [h1, List.append_assoc]
        rfl
      · rw [h2, throwStep_handledErrors _ _ (by rw [applyEffects_hasErrorHandler]; exact hEH)]
        rw [applyEffects_handledErrors]
        cases err
        simp [List.countP_cons]
        omega
      
theorem phases_handledErrors (env : HookEnv) (phases : List AfterRenderPhase)
    (st : ManagerState) (tr : List TraceEntry) (hEH : st.hasErrorHandler = true) :
    ∃ δ, (phases.foldl (fun a p => runPhase env p a) (st, tr)).2 = tr ++ δ ∧
      (phases.foldl (fun a p => runPhase env p a) (st, tr)).1.handledErrors =
        st.handledErrors + (δ.countP fun e => decide (e.result = Except.error ())) ∧
      (phases.foldl (fun a p => runPhase env p a) (st, tr)).1.hasErrorHandler = true := by
  induction phases generalizing st tr with
  | nil => exact ⟨[], by simp, by simp, hEH⟩
  | cons p rest ih =>
    simp only [List.foldl_cons]
    rw [runPhase_def]
    obtain ⟨δ₀, h1, h2, h3⟩ := inner_handledErrors env p st.sequences st tr hEH
    set a₁ := st.sequences.foldl (runSeqHook env p) (st, tr) with ha₁
    obtain ⟨δ₁, h4, h5, h6⟩ := ih a₁.1 a₁.2 h3
    simp only [Prod.mk.eta] at h4 h5 h6
    refine ⟨δ₀ ++ δ₁, ?_, ?_, h6⟩
    · rw [h4, h1, List.append_assoc]
    · rw [h5, h2, List.countP_append]
      omega

theorem unregister_handledErrors (st : ManagerState) (j : Nat) :
    (unregister st j).handledErrors = st.handledErrors := by
  unfold unregister
  split <;> rfl

theorem cleanupSeq_handledErrors (st : ManagerState) (j : Nat) :
    (cleanupSeq st j).handledErrors = st.handledErrors := by
  unfold cleanupSeq
  dsimp only
  split
  · unfold destroySeq
    dsimp only
    rw [unregister_handledErrors]
    rfl
  · rfl

theorem cleanup_fold_handledErrors (ids : List Nat) (st : ManagerState) :
    (ids.foldl cleanupSeq st).handledErrors = st.handledErrors := by
  induction ids generalizing st with
  | nil => rfl
  | cons j rest ih =>
    simp only [List.foldl_cons]
    rw [ih, cleanupSeq_handledErrors]

theorem flushDeferred_handledErrors (st : ManagerState) :
    (flushDeferred st).handledErrors = st.handledErrors := by
  unfold flushDeferred
  dsimp only
  split <;> rfl

theorem execute_handled_errors_acc (env : HookEnv) (st : ManagerState)
    (hEH : st.hasErrorHandler = true) :
    (execute env st).handledErrors =
      st.handledErrors + ((executeTrace env st).countP fun e =>
        decide (e.result = Except.error ())) := by
  obtain ⟨δ, h1, h2, -⟩ :=
    phases_handledErrors env AFTER_RENDER_PHASES { st with executing := true } [] hEH
  have htr : executeTrace env st = δ := by
    rw [executeTrace_eq, h1]
    simp
  rw [execute_eq, flushDeferred_handledErrors]
  unfold cleanup
  rw [cleanup_fold_handledErrors]
  rw [htr]
  exact h2

theorem hookStep_preserves_unerrored (env : HookEnv) (phase : AfterRenderPhase)
    (st : ManagerState) (id t : Nat)
    (hpure : ∀ h v, env id phase = some h → (h v).effects = [])
    (hok : id = t → ∀ h v, env t phase = some h → ∃ w, (h v).result = Except.ok w)
    (h : ((st.store t)).erroredOrDestroyed = false) :
    (((hookStep env phase st id).1.store t)).erroredOrDestroyed = false := by
  rcases hookStep_cases env phase st id with ⟨heq, -⟩ | hcase | hcase
  · rw [heq]
    exact h
  · obtain ⟨hook, v, es, hsome, -, hout, heq⟩ := hcase
    rw [heq]
    dsimp only
    have hes : es = [] := by
      have := hpure hook (((st.store id)).pipelinedValue) hsome
      rw [hout] at this
      exact this
    subst hes
    by_cases hit : id = t
    · subst hit
      simp [applyEffects, setSeq]
      simpa [applyEffects] using h
    · rw [setSeq_store_other _ (fun hh => hit hh.symm)]
      simpa [applyEffects] using h
  · obtain ⟨hook, err, es, hsome, -, hout, heq⟩ := hcase
    by_cases hit : id = t
    · subst hit
      obtain ⟨w, hw⟩ := hok rfl hook (((st.store id)).pipelinedValue) hsome
      rw [hout] at hw
      simp at hw
    · rw [heq]
      dsimp only
      have hes : es = [] := by
        have := hpure hook (((st.store id)).pipelinedValue) hsome
        rw [hout] at this
        exact this
      subst hes
      rw [throwStep_store_other _ (fun hh => hit hh.symm)]
      simpa [applyEffects] using h

theorem inner_preserves_unerrored (env : HookEnv) (phase : AfterRenderPhase)
    (ids : List Nat) (st : ManagerState) (tr : List TraceEntry) (t : Nat)
    (hpure : ∀ id h v, env id phase = some h → (h v).effects = [])
    (hok : ∀ h v, env t phase = some h → ∃ w, (h v).result = Except.ok w)
    (h : ((st.store t)).erroredOrDestroyed = false) :
    (((ids.foldl (runSeqHook env phase) (st, tr)).1.store t)).erroredOrDestroyed = false := by
  induction ids generalizing st tr with
  | nil => exact h
  | cons id rest ih =>
    simp only [List.foldl_cons, runSeqHook_def]
    exact ih _ _ (hookStep_preserves_unerrored env phase st id t (hpure id)
      (fun _ => hok) h)

theorem inner_trace_mono (env : HookEnv) (phase : AfterRenderPhase) (ids : List Nat)
    (st : ManagerState) (tr : List TraceEntry) (e : TraceEntry) (he : e ∈ tr) :
    e ∈ (ids.foldl (runSeqHook env phase) (st, tr)).2 := by
  obtain ⟨δ, h1, -, -⟩ := runSeqHook_fold_trace env phase ids st tr
  rw [h1]
  exact List.mem_append_left δ he

theorem phases_trace_mono (env : HookEnv) (phases : List AfterRenderPhase)
    (st : ManagerState) (tr : List TraceEntry) (e : TraceEntry) (he : e ∈ tr)
    (hexec : st.executing = true) :
    e ∈ (phases.foldl (fun a p => runPhase env p a) (st, tr)).2 := by
  obtain ⟨-, -, δ, h1, -⟩ := runPhases_fold env phases st tr hexec
  rw [h1]
  exact List.mem_append_left δ he

theorem inner_runs (env : HookEnv) (phase : AfterRenderPhase) (ids : List Nat)
    (st : ManagerState) (tr : List TraceEntry) (t : Nat) (ht : t ∈ ids)
    (hhk : ∃ hk, env t phase = some hk)
    (hpure : ∀ id h v, env id phase = some h → (h v).effects = [])
    (hok : ∀ h v, env t phase = some h → ∃ w, (h v).result = Except.ok w)
    (herr : ((st.store t)).erroredOrDestroyed = false) :
    ∃ e ∈ (ids.foldl (runSeqHook env phase) (st, tr)).2, e.seq = t ∧ e.phase = phase := by
  induction ids generalizing st tr with
  | nil => simp at ht
  | cons id rest ih =>
    simp only [List.foldl_cons, runSeqHook_def]
    by_cases hit : id = t
    · subst hit
      obtain ⟨hk, hsome⟩ := hhk
      rcases hookStep_cases env phase st id with ⟨-, hskip | hskip⟩ | hcase | hcase
      · rw [herr] at hskip
        simp at hskip
      · rw [hsome] at hskip
        simp at hskip
      · obtain ⟨hook, v, es, -, -, -, heq⟩ := hcase
        rw [heq]
        dsimp only [Option.toList]
        refine ⟨⟨phase, id, ((st.store id)).pipelinedValue, Except.ok v⟩,
          inner_trace_mono env phase rest _ _ _ ?_, rfl, rfl⟩
        simp
      · obtain ⟨hook, err, es, -, -, -, heq⟩ := hcase
        rw [heq]
        dsimp only [Option.toList]
        refine ⟨⟨phase, id, ((st.store id)).pipelinedValue, Except.error err⟩,
          inner_trace_mono env phase rest _ _ _ ?_, rfl, rfl⟩
        simp
    · have ht' : t ∈ rest := by
        rcases List.mem_cons.mp ht with h | h
        · exact absurd h.symm hit
        · exact h
      exact ih _ _ ht' (hookStep_preserves_unerrored env phase st id t (hpure id)
        (fun hh => absurd hh hit) herr)

theorem phases_runs (env : HookEnv) (phases : List AfterRenderPhase)
    (st : ManagerState) (tr : List TraceEntry) (t : Nat) (q : AfterRenderPhase)
    (hq : q ∈ phases) (hexec : st.executing = true) (ht : t ∈ st.sequences)
    (hhk : ∃ hk, env t q = some hk)
    (hpure : ∀ id q' h v, env id q' = some h → (h v).effects = [])
    (hok : ∀ q' h v, env t q' = some h → ∃ w, (h v).result = Except.ok w)
    (herr : ((st.store t)).erroredOrDestroyed = false) :
    ∃ e ∈ (phases.foldl (fun a p => runPhase env p a) (st, tr)).2,
      e.seq = t ∧ e.phase = q := by
  induction phases generalizing st tr with
  | nil => simp at hq
  | cons p rest ih =>
    simp only [List.foldl_cons]
    rw [runPhase_def]
    obtain ⟨hex1, hseq1⟩ := runSeqHook_fold_state env p st.sequences st tr hexec
    set a₁ := st.sequences.foldl (runSeqHook env p) (st, tr) with ha₁
    by_cases hpq : p = q
    · subst hpq
      obtain ⟨e, he, he1, he2⟩ := inner_runs env p st.sequences st tr t ht hhk
        (fun id => hpure id p) (hok p) herr
      refine ⟨e, ?_, he1, he2⟩
      have := phases_trace_mono env rest a₁.1 a₁.2 e he hex1
      simpa only [Prod.mk.eta] using this
    · have hq' : q ∈ rest := by
        rcases List.mem_cons.mp hq with h | h
        · exact absurd h.symm hpq
        · exact h
      have herr1 : ((a₁.1.store t)).erroredOrDestroyed = false :=
        inner_preserves_unerrored env p st.sequences st tr t (fun id => hpure id p)
          (hok p) herr
      have := ih a₁.1 a₁.2 hq' hex1 (hseq1 ▸ ht) herr1
      simpa only [Prod.mk.eta] using this

/-- C9: if a sequence's hook throws during `execute()`: with an
`ErrorHandler` present, `execute()` calls `handleError` exactly once per
error result in its invocation trace (the error is forwarded); the
inner-loop step on a throwing hook marks the sequence `erroredOrDestroyed`
and records the thrown invocation; a sequence marked `erroredOrDestroyed`
has no hook invoked for the rest of the execution (so none of the thrower's
later-phase hooks run); and every other sequence whose hooks neither
throw nor mutate the manager still has its hook invoked in every phase
where it has one.  The throw never propagates: the catch is `throwStep`,
and `execute` is total by construction. -/
theorem execute_hook_throw (env : HookEnv) (st : ManagerState) (s t : Nat)
    (p q : AfterRenderPhase) :
    (st.hasErrorHandler = true →
      (execute env st).handledErrors =
        st.handledErrors + ((executeTrace env st).countP fun e =>
          decide (e.result = Except.error ()))) ∧
    (∀ hk es err, env s p = some hk → ((st.store s)).erroredOrDestroyed = false →
      hk (((st.store s)).pipelinedValue) = ⟨es, .error err⟩ →
      (((hookStep env p st s).1.store s)).erroredOrDestroyed = true ∧
      (hookStep env p st s).2 = some ⟨p, s, ((st.store s)).pipelinedValue, .error err⟩) ∧
    (((st.store s)).erroredOrDestroyed = true → ∀ e ∈ executeTrace env st, e.seq ≠ s) ∧
    ((∀ id q' h v, env id q' = some h → (h v).effects = []) →
      (∀ q' h v, env t q' = some h → ∃ w, (h v).result = Except.ok w) →
      t ∈ st.sequences → ((st.store t)).erroredOrDestroyed = false →
      q ∈ AFTER_RENDER_PHASES → (∃ hk, env t q = some hk) →
      ∃ e ∈ executeTrace env st, e.seq = t ∧ e.phase = q) := by
  refine ⟨execute_handled_errors_acc env st, ?_, ?_, ?_⟩
  · intro hk es err hsome herr hout
    unfold hookStep
    rw [if_neg (by rw [herr]; simp), hsome]
    dsimp only
    rw [hout]
    exact ⟨throwStep_store_self _ s, rfl⟩
  · intro herr e he hseq
    have := (errored_no_hooks_phases env AFTER_RENDER_PHASES
      { st with executing := true } [] s herr).1 e (by rw [executeTrace_eq] at he; exact he)
    rcases this with h | h
    · simp at h
    · exact h hseq
  · intro hpure hok ht herr hq hhk
    rw [executeTrace_eq]
    exact phases_runs env AFTER_RENDER_PHASES { st with executing := true } [] t q hq rfl
      ht hhk hpure hok herr

/-- Witness for C9: with `envT` over `st0`, sequence 0's EarlyRead hook
throws: the step marks it and records the error, the error is counted into
`handleError` calls, the flagged sequence runs nothing, and sequence 1's
Write hook still runs. -/
theorem execute_hook_throw_witness :
    (st0.hasErrorHandler = true ∧
      (execute envT st0).handledErrors =
        st0.handledErrors + ((executeTrace envT st0).countP fun e =>
          decide (e.result = Except.error ()))) ∧
    (envT 0 .EarlyRead = some throwHook ∧
      ((st0.store 0)).erroredOrDestroyed = false ∧
      throwHook (((st0.store 0)).pipelinedValue) = ⟨[], .error ()⟩ ∧
      (((hookStep envT .EarlyRead st0 0).1.store 0)).erroredOrDestroyed = true ∧
      (hookStep envT .EarlyRead st0 0).2 =
        some ⟨.EarlyRead, 0, ((st0.store 0)).pipelinedValue, .error ()⟩) ∧
    (((stFlag.store 1)).erroredOrDestroyed = true ∧
      ∀ e ∈ executeTrace envT stFlag, e.seq ≠ 1) ∧
    (1 ∈ st0.sequences ∧
      ∃ e ∈ executeTrace envT st0, e.seq = 1 ∧ e.phase = AfterRenderPhase.Write) := by
  have hpure : ∀ id q' h v, envT id q' = some h → (h v).effects = [] := by
    intro id q' h v hsome
    unfold envT at hsome
    split at hsome <;> simp_all [throwHook, pureHook] <;> subst hsome <;> rfl
  have hok : ∀ q' h v, envT 1 q' = some h → ∃ w, (h v).result = Except.ok w := by
    intro q' h v hsome
    unfold envT at hsome
    split at hsome <;> simp_all [throwHook, pureHook]
    subst hsome
    exact ⟨.num 3, rfl⟩
  obtain ⟨hB1, hB2⟩ :=
    (execute_hook_throw envT st0 0 1 .EarlyRead .Write).2.1 throwHook [] () rfl rfl rfl
  refine ⟨⟨rfl, (execute_hook_throw envT st0 0 1 .EarlyRead .Write).1 rfl⟩,
    ⟨rfl, rfl, rfl, hB1, hB2⟩,
    ⟨rfl, (execute_hook_throw envT stFlag 1 0 .EarlyRead .Write).2.2.1 rfl⟩,
    ⟨by decide, (execute_hook_throw envT st0 0 1 .EarlyRead .Write).2.2.2 hpure hok
      (by decide) rfl (by decide) ⟨pureHook (.num 3), rfl⟩⟩⟩
end AfterRender

namespace SignalDebug

theorem extract_nil (g : Graph) (fuel : Nat) (m : SigMap) :
    extractSignalNodesAndEdgesFromRoots g fuel [] m = some (m, g) := by
  simp [extractSignalNodesAndEdgesFromRoots.eq_def]

theorem extract_cons_mem (g : Graph) (fuel : Nat) (n : Nat) (rest : List Nat) (m : SigMap)
    (h : hasKey m n = true) :
    extractSignalNodesAndEdgesFromRoots g fuel (n :: rest) m =
      extractSignalNodesAndEdgesFromRoots g fuel rest m := by
  conv_lhs => rw [extractSignalNodesAndEdgesFromRoots.eq_def]
  simp [h]

theorem extract_cons_new_zero (g : Graph) (n : Nat) (rest : List Nat) (m : SigMap)
    (h : hasKey m n = false) :
    extractSignalNodesAndEdgesFromRoots g 0 (n :: rest) m = none := by
  conv_lhs => rw [extractSignalNodesAndEdgesFromRoots.eq_def]
  simp [h]

theorem extract_cons_new_succ (g : Graph) (fuel : Nat) (n : Nat) (rest : List Nat)
    (m : SigMap) (h : hasKey m n = false) :
    extractSignalNodesAndEdgesFromRoots g (fuel + 1) (n :: rest) m =
      match extractSignalNodesAndEdgesFromRoots g fuel (producersOf g n)
          (m ++ [(n, producersOf g n)]) with
      | none => none
      | some (m₂, g₂) => extractSignalNodesAndEdgesFromRoots g₂ fuel rest m₂ := by
  conv_lhs => rw [extractSignalNodesAndEdgesFromRoots.eq_def]
  simp [h]

theorem extract_frame (g : Graph) : ∀ (fuel : Nat) (nodes : List Nat) (m : SigMap)
    (r : SigMap × Graph),
    extractSignalNodesAndEdgesFromRoots g fuel nodes m = some r → r.2 = g := by
  intro fuel
  induction fuel with
  | zero =>
    intro nodes
    induction nodes with
    | nil =>
      intro m r h
      rw [extract_nil] at h
      cases h
      rfl
    | cons n rest ihn =>
      intro m r h
      by_cases hk : hasKey m n
      · rw [extract_cons_mem _ _ _ _ _ hk] at h
        exact ihn m r h
      · rw [extract_cons_new_zero _ _ _ _ (by simpa using hk)] at h
        cases h
  | succ fuel' ihf =>
    intro nodes
    induction nodes with
    | nil =>
      intro m r h
      rw [extract_nil] at h
      cases h
      rfl
    | cons n rest ihn =>
      intro m r h
      by_cases hk : hasKey m n
      · rw [extract_cons_mem _ _ _ _ _ hk] at h
        exact ihn m r h
      · rw [extract_cons_new_succ _ _ _ _ _ (by simpa using hk)] at h
        rcases hnested : extractSignalNodesAndEdgesFromRoots g fuel' (producersOf g n)
            (m ++ [(n, producersOf g n)]) with _ | ⟨m₂, g₂⟩
        · rw [hnested] at h
          cases h
        · rw [hnested] at h
          have hg₂ : g₂ = g := ihf (producersOf g n) _ (m₂, g₂) hnested
          rw [hg₂] at h
          exact ihf rest m₂ r h

/-- C5: `getSignalGraph` is read-only on the reactive graph: for every
injector it accepts (modelled by `NodeInjectorModel`), the reactive graph
threaded through the whole extraction comes back unchanged — no field of
any `ReactiveNode` is mutated — and only a fresh `DebugSignalGraph` is
constructed. -/
theorem getSignalGraph_readonly (g : Graph) (inj : NodeInjectorModel) (fuel : Nat)
    (r : DebugSignalGraph × Graph) (h : getSignalGraph g inj fuel = some r) :
    r.2 = g := by
  unfold getSignalGraph at h
  rcases hx : extractSignalNodesAndEdgesFromRoots g fuel (signalNodesOf inj) [] with _ | ⟨m, g'⟩ <;>
    rw [hx] at h
  · cases h
  · cases h
    have hg : g' = g := extract_frame g fuel (signalNodesOf inj) [] (m, g') hx
    exact hg

end SignalDebug

namespace SignalDebug

/-- Witness for C5: the full extraction over the concrete cyclic graph
`gA` returns the debug graph and the untouched reactive graph. -/
theorem getSignalGraph_readonly_witness :
    getSignalGraph gA injA 5 = some
      (⟨[⟨"effect", some "e", none⟩, ⟨"computed", some "c", some (.num 5)⟩,
          ⟨"signal", some "s", some (.num 3)⟩],
        [⟨0, 1⟩, ⟨1, 2⟩, ⟨2, 1⟩]⟩, gA) ∧
    ((⟨[⟨"effect", some "e", none⟩, ⟨"computed", some "c", some (.num 5)⟩,
          ⟨"signal", some "s", some (.num 3)⟩],
        [⟨0, 1⟩, ⟨1, 2⟩, ⟨2, 1⟩]⟩, gA) : DebugSignalGraph × Graph).2 = gA := by
  have h : getSignalGraph gA injA 5 = some
      (⟨[⟨"effect", some "e", none⟩, ⟨"computed", some "c", some (.num 5)⟩,
          ⟨"signal", some "s", some (.num 3)⟩],
        [⟨0, 1⟩, ⟨1, 2⟩, ⟨2, 1⟩]⟩, gA) := by
    simp [getSignalGraph, extractSignalNodesAndEdgesFromRoots, hasKey, producersOf, gA,
      List.lookup, injA, signalNodesOf, getNodesAndEdgesFromSignalMap, renderNode,
      jsIndexOf, List.indexOf, List.findIdx, List.findIdx.go]
  exact ⟨h, getSignalGraph_readonly gA injA 5 _ h⟩

end SignalDebug

namespace SignalDebug

theorem natBeq_comm (n k : Nat) : (n == k) = (k == n) := by
  cases h : k == n
  · simp only [beq_eq_false_iff_ne] at h
    exact beq_eq_false_iff_ne.mpr (Ne.symm h)
  · simp only [beq_iff_eq] at h
    simp [h]

theorem hasKey_iff (m : SigMap) (k : Nat) : hasKey m k = true ↔ k ∈ m.map Prod.fst := by
  unfold hasKey
  rw [List.any_eq_true]
  constructor
  · rintro ⟨p, hp, he⟩
    rw [beq_iff_eq] at he
    subst he
    exact List.mem_map_of_mem Prod.fst hp
  · intro hk
    obtain ⟨p, hp, he⟩ := List.mem_map.mp hk
    refine ⟨p, hp, ?_⟩
    rw [beq_iff_eq]
    exact he

theorem hasKey_append_single (m : SigMap) (n k : Nat) (ps : List Nat) :
    hasKey (m ++ [(n, ps)]) k = (hasKey m k || n == k) := by
  unfold hasKey
  rw [List.any_append]
  simp

theorem extract_keys_mono (g : Graph) : ∀ (fuel : Nat) (nodes : List Nat) (m m₂ : SigMap)
    (g₂ : Graph), extractSignalNodesAndEdgesFromRoots g fuel nodes m = some (m₂, g₂) →
    ∀ k, hasKey m k = true → hasKey m₂ k = true := by
  intro fuel
  induction fuel with
  | zero =>
    intro nodes
    induction nodes with
    | nil =>
      intro m m₂ g₂ h k hk
      rw [extract_nil] at h
      cases h
      exact hk
    | cons n rest ihn =>
      intro m m₂ g₂ h k hk
      by_cases hkn : hasKey m n
      · rw [extract_cons_mem _ _ _ _ _ hkn] at h
        exact ihn m m₂ g₂ h k hk
      · rw [extract_cons_new_zero _ _ _ _ (by simpa using hkn)] at h
        cases h
  | succ fuel' ihf =>
    intro nodes
    induction nodes with
    | nil =>
      intro m m₂ g₂ h k hk
      rw [extract_nil] at h
      cases h
      exact hk
    | cons n rest ihn =>
      intro m m₂ g₂ h k hk
      by_cases hkn : hasKey m n
      · rw [extract_cons_mem _ _ _ _ _ hkn] at h
        exact ihn m m₂ g₂ h k hk
      · rw [extract_cons_new_succ _ _ _ _ _ (by simpa using hkn)] at h
        rcases hnested : extractSignalNodesAndEdgesFromRoots g fuel' (producersOf g n)
            (m ++ [(n, producersOf g n)]) with _ | ⟨m₃, g₃⟩
        · rw [hnested] at h
          cases h
        · rw [hnested] at h
          have hg₃ : g₃ = g := extract_frame g fuel' _ _ _ hnested
          rw [hg₃] at h
          have hk1 : hasKey (m ++ [(n, producersOf g n)]) k = true := by
            rw [hasKey_append_single]
            simp [hk]
          exact ihf rest m₃ m₂ g₂ h k (ihf (producersOf g n) _ m₃ g₃ hnested k hk1)

theorem freshKeyCount_le_of_keys (g : Graph) (m m' : SigMap)
    (h : ∀ k, hasKey m k = true → hasKey m' k = true) :
    freshKeyCount g m' ≤ freshKeyCount g m := by
  unfold freshKeyCount
  rw [← List.countP_eq_length_filter, ← List.countP_eq_length_filter]
  apply List.countP_mono_left
  intro k _ hk
  simp only [Bool.not_eq_true'] at hk ⊢
  cases hm : hasKey m k
  · rfl
  · rw [h k hm] at hk
    cases hk

theorem freshKeyCount_pos (g : Graph) (m : SigMap) (n : Nat)
    (hn : n ∈ g.map Prod.fst) (hk : hasKey m n = false) :
    0 < freshKeyCount g m := by
  unfold freshKeyCount
  apply List.length_pos_of_mem (a := n)
  rw [List.mem_filter]
  exact ⟨List.mem_dedup.mpr hn, by simp [hk]⟩

theorem freshKeyCount_insert (g : Graph) (m : SigMap) (n : Nat) (ps : List Nat)
    (hn : n ∈ g.map Prod.fst) (hk : hasKey m n = false) :
    freshKeyCount g (m ++ [(n, ps)]) + 1 = freshKeyCount g m := by
  unfold freshKeyCount
  have hfil : ((g.map Prod.fst).dedup.filter fun k => !(hasKey (m ++ [(n, ps)]) k)) =
      ((g.map Prod.fst).dedup.filter fun k => !(hasKey m k)).filter fun k => k != n := by
    rw [List.filter_filter]
    apply List.filter_congr
    intro k _
    rw [hasKey_append_single, natBeq_comm, Bool.not_or]
    rw [Bool.and_comm]
    rfl
  rw [hfil]
  have hmem : n ∈ ((g.map Prod.fst).dedup.filter fun k => !(hasKey m k)) := by
    rw [List.mem_filter]
    exact ⟨List.mem_dedup.mpr hn, by simp [hk]⟩
  have hnd : ((g.map Prod.fst).dedup.filter fun k => !(hasKey m k)).Nodup :=
    (List.nodup_dedup _).filter _
  rw [← hnd.erase_eq_filter n, List.length_erase_of_mem hmem]
  have := List.length_pos_of_mem hmem
  omega

end SignalDebug

namespace SignalDebug

theorem extract_isSome (g : Graph)
    (hclosed : ∀ k p, p ∈ producersOf g k → p ∈ g.map Prod.fst) :
    ∀ (fuel : Nat) (nodes : List Nat) (m : SigMap),
      (∀ n ∈ nodes, n ∈ g.map Prod.fst) →
      freshKeyCount g m ≤ fuel →
      ∃ r, extractSignalNodesAndEdgesFromRoots g fuel nodes m = some r := by
  intro fuel
  induction fuel with
  | zero =>
    intro nodes
    induction nodes with
    | nil =>
      intro m _ _
      exact ⟨(m, g), extract_nil g 0 m⟩
    | cons n rest ihn =>
      intro m hroots hfuel
      by_cases hkn : hasKey m n
      · rw [extract_cons_mem _ _ _ _ _ hkn]
        exact ihn m (fun x hx => hroots x (List.mem_cons_of_mem n hx)) hfuel
      · exfalso
        have := freshKeyCount_pos g m n (hroots n (List.mem_cons_self n rest))
          (by simpa using hkn)
        omega
  | succ fuel' ihf =>
    intro nodes
    induction nodes with
    | nil =>
      intro m _ _
      exact ⟨(m, g), extract_nil g _ m⟩
    | cons n rest ihn =>
      intro m hroots hfuel
      by_cases hkn : hasKey m n
      · rw [extract_cons_mem _ _ _ _ _ hkn]
        exact ihn m (fun x hx => hroots x (List.mem_cons_of_mem n hx)) hfuel
      · rw [extract_cons_new_succ _ _ _ _ _ (by simpa using hkn)]
        have hn : n ∈ g.map Prod.fst := hroots n (List.mem_cons_self n rest)
        have hins := freshKeyCount_insert g m n (producersOf g n) hn (by simpa using hkn)
        have hfuel' : freshKeyCount g (m ++ [(n, producersOf g n)]) ≤ fuel' := by omega
        obtain ⟨⟨m₂, g₂⟩, hnested⟩ := ihf (producersOf g n) (m ++ [(n, producersOf g n)])
          (fun p hp => hclosed n p hp) hfuel'
        rw [hnested]
        have hg₂ : g₂ = g := extract_frame g fuel' _ _ _ hnested
        have hmono := extract_keys_mono g fuel' (producersOf g n)
          (m ++ [(n, producersOf g n)]) m₂ g₂ hnested
        have hfuel₂ : freshKeyCount g m₂ ≤ fuel' :=
          le_trans (freshKeyCount_le_of_keys g _ _ hmono) hfuel'
        subst hg₂
        exact ihf rest m₂ (fun x hx => hroots x (List.mem_cons_of_mem n hx)) hfuel₂

theorem extract_keys_nodup (g : Graph) : ∀ (fuel : Nat) (nodes : List Nat) (m m₂ : SigMap)
    (g₂ : Graph), extractSignalNodesAndEdgesFromRoots g fuel nodes m = some (m₂, g₂) →
    (m.map Prod.fst).Nodup → (m₂.map Prod.fst).Nodup := by
  intro fuel
  induction fuel with
  | zero =>
    intro nodes
    induction nodes with
    | nil =>
      intro m m₂ g₂ h hnd
      rw [extract_nil] at h
      cases h
      exact hnd
    | cons n rest ihn =>
      intro m m₂ g₂ h hnd
      by_cases hkn : hasKey m n
      · rw [extract_cons_mem _ _ _ _ _ hkn] at h
        exact ihn m m₂ g₂ h hnd
      · rw [extract_cons_new_zero _ _ _ _ (by simpa using hkn)] at h
        cases h
  | succ fuel' ihf =>
    intro nodes
    induction nodes with
    | nil =>
      intro m m₂ g₂ h hnd
      rw [extract_nil] at h
      cases h
      exact hnd
    | cons n rest ihn =>
      intro m m₂ g₂ h hnd
      by_cases hkn : hasKey m n
      · rw [extract_cons_mem _ _ _ _ _ hkn] at h
        exact ihn m m₂ g₂ h hnd
      · rw [extract_cons_new_succ _ _ _ _ _ (by simpa using hkn)] at h
        rcases hnested : extractSignalNodesAndEdgesFromRoots g fuel' (producersOf g n)
            (m ++ [(n, producersOf g n)]) with _ | ⟨m₃, g₃⟩
        · rw [hnested] at h
          cases h
        · rw [hnested] at h
          have hnd1 : ((m ++ [(n, producersOf g n)]).map Prod.fst).Nodup := by
            rw [List.map_append]
            simp only [List.map_cons, List.map_nil]
            rw [List.nodup_append]
            refine ⟨hnd, List.nodup_singleton n, ?_⟩
            intro x hx
            simp only [List.mem_singleton]
            intro hxn
            subst hxn
            exact (by simpa using hkn : ¬ hasKey m x = true) ((hasKey_iff m x).mpr hx)
          have hg₃ : g₃ = g := extract_frame g fuel' _ _ _ hnested
          rw [hg₃] at h
          exact ihf rest m₃ m₂ g₂ h (ihf (producersOf g n) _ m₃ g₃ hnested hnd1)

/-- C6: `extractSignalNodesAndEdgesFromRoots` terminates on every finite
reactive graph, including graphs whose producer edges form cycles: a node
already present in the dependency map is skipped, so each descent inserts
a fresh node and with fuel at least the number of graph nodes not yet in
the map the recursion completes (never exhausts its fuel), and the
resulting map visits each node at most once (its keys are
duplicate-free). -/
theorem extract_terminates (g : Graph) (fuel : Nat) (nodes : List Nat) (m : SigMap)
    (hclosed : ∀ k p, p ∈ producersOf g k → p ∈ g.map Prod.fst)
    (hroots : ∀ n ∈ nodes, n ∈ g.map Prod.fst)
    (hfuel : freshKeyCount g m ≤ fuel) :
    (∃ r, extractSignalNodesAndEdgesFromRoots g fuel nodes m = some r) ∧
    (∀ m₂ g₂, extractSignalNodesAndEdgesFromRoots g fuel nodes m = some (m₂, g₂) →
      (m.map Prod.fst).Nodup → (m₂.map Prod.fst).Nodup) :=
  ⟨extract_isSome g hclosed fuel nodes m hroots hfuel,
    fun m₂ g₂ h hnd => extract_keys_nodup g fuel nodes m m₂ g₂ h hnd⟩

theorem gA_closed : ∀ k p, p ∈ producersOf gA k → p ∈ gA.map Prod.fst := by
  intro k p hp
  rcases k with _ | _ | _ | k <;> simp_all [producersOf, gA, List.lookup]

/-- Witness for C6: on the concrete cyclic graph `gA`, extraction from
root 0 with fuel 5 succeeds and yields a duplicate-free key set. -/
theorem extract_terminates_witness :
    ((∀ k p, p ∈ producersOf gA k → p ∈ gA.map Prod.fst) ∧
      (∀ n ∈ ([0] : List Nat), n ∈ gA.map Prod.fst) ∧
      freshKeyCount gA [] ≤ 5) ∧
    (∃ r, extractSignalNodesAndEdgesFromRoots gA 5 [0] [] = some r) ∧
    (∀ m₂ g₂, extractSignalNodesAndEdgesFromRoots gA 5 [0] [] = some (m₂, g₂) →
      (([] : SigMap).map Prod.fst).Nodup → (m₂.map Prod.fst).Nodup) :=
  ⟨⟨gA_closed, by decide, by decide⟩,
    extract_terminates gA 5 [0] [] gA_closed (by decide) (by decide)⟩

end SignalDebug

namespace SignalDebug

theorem extract_entries (g : Graph) : ∀ (fuel : Nat) (nodes : List Nat) (m m₂ : SigMap)
    (g₂ : Graph), extractSignalNodesAndEdgesFromRoots g fuel nodes m = some (m₂, g₂) →
    (∃ δ, m₂ = m ++ δ) ∧
    (∀ n ∈ nodes, hasKey m₂ n = true) ∧
    (∀ k ps, (k, ps) ∈ m₂ → (k, ps) ∈ m ∨ ∀ p ∈ ps, hasKey m₂ p = true) := by
  intro fuel
  induction fuel with
  | zero =>
    intro nodes
    induction nodes with
    | nil =>
      intro m m₂ g₂ h
      rw [extract_nil] at h
      cases h
      exact ⟨⟨[], by simp⟩, by simp, fun k ps hk => Or.inl hk⟩
    | cons n rest ihn =>
      intro m m₂ g₂ h
      by_cases hkn : hasKey m n
      · rw [extract_cons_mem _ _ _ _ _ hkn] at h
        obtain ⟨h1, h2, h3⟩ := ihn m m₂ g₂ h
        refine ⟨h1, ?_, h3⟩
        intro x hx
        rcases List.mem_cons.mp hx with hx | hx
        · subst hx
          exact extract_keys_mono g 0 rest m m₂ g₂ h x hkn
        · exact h2 x hx
      · rw [extract_cons_new_zero _ _ _ _ (by simpa using hkn)] at h
        cases h
  | succ fuel' ihf =>
    intro nodes
    induction nodes with
    | nil =>
      intro m m₂ g₂ h
      rw [extract_nil] at h
      cases h
      exact ⟨⟨[], by simp⟩, by simp, fun k ps hk => Or.inl hk⟩
    | cons n rest ihn =>
      intro m m₂ g₂ h
      by_cases hkn : hasKey m n
      · rw [extract_cons_mem _ _ _ _ _ hkn] at h
        obtain ⟨h1, h2, h3⟩ := ihn m m₂ g₂ h
        refine ⟨h1, ?_, h3⟩
        intro x hx
        rcases List.mem_cons.mp hx with hx | hx
        · subst hx
          exact extract_keys_mono g _ rest m m₂ g₂ h x hkn
        · exact h2 x hx
      · rw [extract_cons_new_succ _ _ _ _ _ (by simpa using hkn)] at h
        rcases hnested : extractSignalNodesAndEdgesFromRoots g fuel' (producersOf g n)
            (m ++ [(n, producersOf g n)]) with _ | ⟨m₃, g₃⟩
        · rw [hnested] at h
          cases h
        · rw [hnested] at h
          have hg₃ : g₃ = g := extract_frame g fuel' _ _ _ hnested
          rw [hg₃] at h
          obtain ⟨⟨δ₁, hδ₁⟩, hn2, hn3⟩ := ihf (producersOf g n) _ m₃ g₃ hnested
          obtain ⟨⟨δ₂, hδ₂⟩, hr2, hr3⟩ := ihf rest m₃ m₂ g₂ h
          have hmono := extract_keys_mono g fuel' rest m₃ m₂ g₂ h
          refine ⟨⟨[(n, producersOf g n)] ++ δ₁ ++ δ₂, by
            rw [hδ₂, hδ₁]; simp [List.append_assoc]⟩, ?_, ?_⟩
          · intro x hx
            rcases List.mem_cons.mp hx with rfl | hx
            · apply hmono
              apply extract_keys_mono g fuel' (producersOf g x) _ m₃ g₃ hnested
              rw [hasKey_append_single]
              simp
            · exact hr2 x hx
          · intro k ps hk
            rcases hr3 k ps hk with hk3 | hk3
            · rcases hn3 k ps hk3 with hk4 | hk4
              · rcases List.mem_append.mp hk4 with hk5 | hk5
                · exact Or.inl hk5
                · refine Or.inr ?_
                  simp only [List.mem_singleton] at hk5
                  cases hk5
                  intro p hp
                  exact hmono p (hn2 p hp)
              · exact Or.inr fun p hp => hmono p (hk4 p hp)
            · exact Or.inr hk3

theorem jsIndexOf_mem_bounds (l : List Nat) (x : Nat) (hx : x ∈ l) :
    0 ≤ jsIndexOf l x ∧ jsIndexOf l x < l.length := by
  unfold jsIndexOf
  rw [if_pos hx]
  exact ⟨Int.ofNat_nonneg _, by exact_mod_cast List.indexOf_lt_length.mpr hx⟩

/-- C10: every `DebugSignalGraphEdge` produced by `getSignalGraph` has
consumer and producer indices that are valid indices into the returned
`nodes` array (at least 0 and strictly below `nodes.length`): every
producer reached during extraction is a key of the dependency map before
edges are formed, so `indexOf` never returns −1. -/
theorem getSignalGraph_edges_valid (g : Graph) (inj : NodeInjectorModel) (fuel : Nat)
    (dbg : DebugSignalGraph) (g' : Graph)
    (h : getSignalGraph g inj fuel = some (dbg, g')) :
    ∀ e ∈ dbg.edges, 0 ≤ e.consumer ∧ e.consumer < dbg.nodes.length ∧
      0 ≤ e.producer ∧ e.producer < dbg.nodes.length := by
  intro e he
  unfold getSignalGraph at h
  rcases hx : extractSignalNodesAndEdgesFromRoots g fuel (signalNodesOf inj) []
    with _ | ⟨m, g₀⟩ <;> rw [hx] at h
  · cases h
  · obtain ⟨-, -, hclosed⟩ := extract_entries g fuel (signalNodesOf inj) [] m g₀ hx
    cases h
    dsimp only at he ⊢
    rw [List.mem_flatMap] at he
    obtain ⟨entry, hentry, he2⟩ := he
    rw [List.mem_map] at he2
    obtain ⟨producer, hprod, he3⟩ := he2
    subst he3
    rw [List.length_map, List.length_map]
    dsimp only
    have hcons : entry.1 ∈ m.map Prod.fst := List.mem_map_of_mem Prod.fst hentry
    have hkey : ∀ p ∈ entry.2, hasKey m p = true := by
      rcases hclosed entry.1 entry.2 (by simpa using hentry) with hfalse | hp
      · simp at hfalse
      · exact hp
    have hprodmem : producer ∈ m.map Prod.fst :=
      (hasKey_iff m producer).mp (hkey producer hprod)
    obtain ⟨hc1, hc2⟩ := jsIndexOf_mem_bounds (m.map Prod.fst) entry.1 hcons
    obtain ⟨hp1, hp2⟩ := jsIndexOf_mem_bounds (m.map Prod.fst) producer hprodmem
    rw [List.length_map] at hc2 hp2
    exact ⟨hc1, hc2, hp1, hp2⟩

/-- Witness for C10: the concrete extraction over `gA` yields edges
`(0,1) (1,2) (2,1)`, all valid indices into the three-node array. -/
theorem getSignalGraph_edges_valid_witness :
    getSignalGraph gA injA 5 = some
      (⟨[⟨"effect", some "e", none⟩, ⟨"computed", some "c", some (.num 5)⟩,
          ⟨"signal", some "s", some (.num 3)⟩],
        [⟨0, 1⟩, ⟨1, 2⟩, ⟨2, 1⟩]⟩, gA) ∧
    (∀ e ∈ (⟨[⟨"effect", some "e", none⟩, ⟨"computed", some "c", some (.num 5)⟩,
          ⟨"signal", some "s", some (.num 3)⟩],
        [⟨0, 1⟩, ⟨1, 2⟩, ⟨2, 1⟩]⟩ : DebugSignalGraph).edges,
      0 ≤ e.consumer ∧
        e.consumer < (⟨[⟨"effect", some "e", none⟩,
            ⟨"computed", some "c", some (.num 5)⟩,
            ⟨"signal", some "s", some (.num 3)⟩],
          [⟨0, 1⟩, ⟨1, 2⟩, ⟨2, 1⟩]⟩ : DebugSignalGraph).nodes.length ∧
        0 ≤ e.producer ∧
        e.producer < (⟨[⟨"effect", some "e", none⟩,
            ⟨"computed", some "c", some (.num 5)⟩,
            ⟨"signal", some "s", some (.num 3)⟩],
          [⟨0, 1⟩, ⟨1, 2⟩, ⟨2, 1⟩]⟩ : DebugSignalGraph).nodes.length) := by
  have h : getSignalGraph gA injA 5 = some
      (⟨[⟨"effect", some "e", none⟩, ⟨"computed", some "c", some (.num 5)⟩,
          ⟨"signal", some "s", some (.num 3)⟩],
        [⟨0, 1⟩, ⟨1, 2⟩, ⟨2, 1⟩]⟩, gA) := by
    simp [getSignalGraph, extractSignalNodesAndEdgesFromRoots, hasKey, producersOf, gA,
      List.lookup, injA, signalNodesOf, getNodesAndEdgesFromSignalMap, renderNode,
      jsIndexOf, List.indexOf, List.findIdx, List.findIdx.go]
  exact ⟨h, getSignalGraph_edges_valid gA injA 5 _ gA h⟩

end SignalDebug

namespace Computed

/-- C7: computed values are recomputed lazily: a producer change only
marks the node stale and never runs the computation (the run count is
unchanged at the moment a producer changes); reading a fresh node returns
the cache without recomputing; the computation reruns exactly when the
value is read while stale, after which the node is fresh again. -/
theorem computed_lazy (f : Int → Int) (pv : Int) (c : ComputedNode) :
    ((producerChanged c).computeCount = c.computeCount ∧
      (producerChanged c).stale = true) ∧
    (c.stale = false → readComputed f pv c = (c.cached, c)) ∧
    (c.stale = true →
      (readComputed f pv c).2.computeCount = c.computeCount + 1 ∧
      (readComputed f pv c).1 = f pv ∧
      (readComputed f pv c).2.stale = false) := by
  refine ⟨⟨rfl, rfl⟩, ?_, ?_⟩
  · intro h
    unfold readComputed
    rw [h]
    simp
  · intro h
    unfold readComputed
    rw [h]
    exact ⟨rfl, rfl, rfl⟩

/-- Witness for C7 at concrete computed nodes: one stale, one fresh. -/
theorem computed_lazy_witness :
    ((producerChanged ⟨4, false, 2⟩).computeCount = (⟨4, false, 2⟩ : ComputedNode).computeCount ∧
      (producerChanged ⟨4, false, 2⟩).stale = true) ∧
    ((⟨4, false, 2⟩ : ComputedNode).stale = false ∧
      readComputed (fun x => x + 1) 7 ⟨4, false, 2⟩ = (4, ⟨4, false, 2⟩)) ∧
    ((⟨4, true, 2⟩ : ComputedNode).stale = true ∧
      (readComputed (fun x => x + 1) 7 ⟨4, true, 2⟩).2.computeCount =
        (⟨4, true, 2⟩ : ComputedNode).computeCount + 1 ∧
      (readComputed (fun x => x + 1) 7 ⟨4, true, 2⟩).1 = (fun x : Int => x + 1) 7 ∧
      (readComputed (fun x => x + 1) 7 ⟨4, true, 2⟩).2.stale = false) :=
  ⟨(computed_lazy (fun x => x + 1) 7 ⟨4, false, 2⟩).1,
    ⟨rfl, (computed_lazy (fun x => x + 1) 7 ⟨4, false, 2⟩).2.1 rfl⟩,
    ⟨rfl, (computed_lazy (fun x => x + 1) 7 ⟨4, true, 2⟩).2.2 rfl⟩⟩

end Computed
